import Mathlib

/-!
Shallow embedding of `sockeye/inference.py` (decoding orchestration of the
Sockeye translation engine) and proofs about its chunking, batching,
traceback, reassembly and output-formatting logic.

Scores are modelled as `WithBot ℚ`: `⊥` stands for float `-inf` (addition on
`WithBot` absorbs `⊥` exactly as IEEE addition absorbs `-inf`), and finite
floats are modelled as rationals.  Fallible Python code (indexing that can
raise) is modelled with `Option`.
-/

namespace Sockeye

/-- Token ids: each position of a target sequence carries one id per factor
(`TokenIds = List[List[int]]` in the source). -/
abbrev TokenIds := List (List ℕ)

/-- Model of a float score: `⊥` is `-inf`. -/
abbrev Score := WithBot ℚ

/-- Sentence ids are `Union[int, str]` in the source. -/
abbrev SentenceId := ℕ ⊕ String

/-- The EOS symbol `C.EOS_SYMBOL`. -/
def EOS_SYMBOL : String := "</s>"

/-- Embedding of `TranslatorInput` (inference.py, lines 119-256).  The
`isBad` flag marks the `BadTranslatorInput` subclass (line 259); a lexicon is
identified by a number (`restrict_lexicon` holds an opaque object reference in
the source); `pass_through_dict` is an opaque key/value map. -/
structure TranslatorInput where
  sentence_id : SentenceId
  tokens : List String
  factors : Option (List (List String)) := none
  source_prefix_tokens : Option (List String) := none
  source_prefix_factors : Option (List (List String)) := none
  target_prefix_tokens : Option (List String) := none
  target_prefix_factors : Option (List (List String)) := none
  target_segment_durations : Option (List ℕ) := none
  use_target_prefix_all_chunks : Bool := true
  keep_target_prefix_key : Bool := true
  restrict_lexicon : Option ℕ := none
  constraints : Option (List (List String)) := none
  avoid_list : Option (List (List String)) := none
  pass_through_dict : Option (List (String × String)) := none
  isBad : Bool := false
  deriving DecidableEq

/-- `TranslatorInput.num_source_prefix_tokens` (line 164). -/
def TranslatorInput.numSourcePrefixTokens (inp : TranslatorInput) : ℕ :=
  (inp.source_prefix_tokens.getD []).length

/-- `TranslatorInput.num_target_prefix_tokens` (line 177). -/
def TranslatorInput.numTargetPrefixTokens (inp : TranslatorInput) : ℕ :=
  (inp.target_prefix_tokens.getD []).length

/-- `len(TranslatorInput)` (line 148): token count plus source-prefix count. -/
def TranslatorInput.pyLen (inp : TranslatorInput) : ℕ :=
  inp.tokens.length + inp.numSourcePrefixTokens

/-- Embedding of Python `range(0, n, step)` (ascending, step ≥ 1; for step = 0
Python raises, modelled as the empty list, and the embedding is only used with
positive steps). -/
def rangeStep (n step : ℕ) : List ℕ :=
  if step = 0 then [] else (List.range ((n + step - 1) / step)).map (· * step)

/-- Enumeration `enumerate(...)` starting at `n` (explicit recursion, used
instead of `List.enum` to keep proofs self-contained). -/
def enumFromL (n : ℕ) : List α → List (ℕ × α)
  | [] => []
  | a :: l => (n, a) :: enumFromL (n + 1) l

/-- Body of the `yield` of `TranslatorInput.chunks` (lines 223-236): the chunk
with chunk id `chunkId` starting at token offset `i`.  Note on line 229 of the
source: the `yield` passes `self.target_prefix_factors` unconditionally, not
the chunk-gated local `target_prefix_factors` computed at line 220, so every
chunk receives the original target-prefix factors regardless of
`use_target_prefix_all_chunks`. -/
def TranslatorInput.mkChunk (inp : TranslatorInput) (chunkId i chunkSize : ℕ) : TranslatorInput :=
  { sentence_id := inp.sentence_id
    tokens := (inp.tokens.drop i).take chunkSize
    factors := inp.factors.map (fun fs => fs.map (fun f => (f.drop i).take chunkSize))
    source_prefix_tokens := inp.source_prefix_tokens
    source_prefix_factors := inp.source_prefix_factors
    target_prefix_tokens :=
      if chunkId = 0 ∨ inp.use_target_prefix_all_chunks then inp.target_prefix_tokens else none
    target_prefix_factors := inp.target_prefix_factors
    target_segment_durations := inp.target_segment_durations
    use_target_prefix_all_chunks := inp.use_target_prefix_all_chunks
    keep_target_prefix_key := inp.keep_target_prefix_key
    restrict_lexicon := inp.restrict_lexicon
    constraints := if chunkId = 0 then inp.constraints else none
    avoid_list := inp.avoid_list
    pass_through_dict := if chunkId = 0 then inp.pass_through_dict else none
    isBad := inp.isBad }

/-- Embedding of `TranslatorInput.chunks` (lines 197-236), with the generator
materialized as a list: one chunk per offset of `range(0, len(self) -
self.num_source_prefix_tokens, chunk_size)`. -/
def TranslatorInput.chunksList (inp : TranslatorInput) (chunkSize : ℕ) : List TranslatorInput :=
  (enumFromL 0 (rangeStep (inp.pyLen - inp.numSourcePrefixTokens) chunkSize)).map
    (fun p => inp.mkChunk p.1 p.2 chunkSize)

/-- Embedding of `TranslatorInput.with_eos` (lines 238-256). -/
def TranslatorInput.withEos (inp : TranslatorInput) : TranslatorInput :=
  { inp with
    tokens := inp.tokens ++ [EOS_SYMBOL]
    factors := inp.factors.map (fun fs => fs.map (fun f => f ++ [EOS_SYMBOL])) }

/-- A blank input, used only as a default for list indexing in statements. -/
def blankTInput : TranslatorInput := { sentence_id := Sum.inl 0, tokens := [] }

/-- Concrete five-token request with one factor sequence, used to witness the
chunk round-trip. -/
def exInputC2 : TranslatorInput :=
  { sentence_id := Sum.inl 1
    tokens := ["a", "b", "c", "d", "e"]
    factors := some [["x", "y", "z", "w", "v"]] }

/-- Concrete three-token request carrying a target prefix and a target-prefix
factor, with `use_target_prefix_all_chunks = False`. -/
def exInputC3 : TranslatorInput :=
  { sentence_id := Sum.inl 2
    tokens := ["a", "b", "c"]
    target_prefix_tokens := some ["p"]
    target_prefix_factors := some [["f"]]
    use_target_prefix_all_chunks := false }

/-- Pointer walk of `_get_best_word_indices_for_kth_hypotheses` (lines
1285-1307), emitted in reverse: `walkRev hyp p t` lists the recorded slots for
result positions `t, t-1, ..., 0`, where `p` is the pointer arriving at
position `t` and the next pointer is read from the backpointer matrix `hyp`
at the current position (`pointer = all_hyp_indices[pointer, step]`). -/
def walkRev (hyp : ℕ → ℕ → ℕ) : ℕ → ℕ → List ℕ
  | p, 0 => [p]
  | p, t + 1 => p :: walkRev hyp (hyp p (t + 1)) t

/-- Backward traceback for one hypothesis `k` over a backpointer matrix with
`numSteps` columns (lines 1298-1307): the first pointer is
`all_hyp_indices[k, -1]`, then the walk proceeds from column `numSteps - 2`
down to column `0`. -/
def traceback (hyp : ℕ → ℕ → ℕ) (k numSteps : ℕ) : List ℕ :=
  if numSteps ≤ 1 then [] else (walkRev hyp (hyp k (numSteps - 1)) (numSteps - 2)).reverse

/-- Embedding of `Translator._get_best_word_indices_for_kth_hypotheses`
(lines 1285-1307); the numpy-vectorized walk over the `ks` vector is the map
of the single-hypothesis walk, since the rows are independent. -/
def getBestWordIndicesForKthHypotheses (ks : List ℕ) (hyp : ℕ → ℕ → ℕ)
    (numSteps : ℕ) : List (List ℕ) :=
  ks.map (fun k => traceback hyp k numSteps)

/-- Concrete backpointer matrix used as a witness. -/
def hypW : ℕ → ℕ → ℕ := fun s t => (s + t) % 4

/-- The translator-level `restrict_lexicon` attribute (line 801): absent, a
single lexicon, or a dict of named lexicons. -/
inductive TranslatorLexiconSetting where
  | noLexicon : TranslatorLexiconSetting
  | single : ℕ → TranslatorLexiconSetting
  | multi : List ℕ → TranslatorLexiconSetting
  deriving DecidableEq

/-- One iteration of the vocabulary-restriction fold of
`Translator._get_inference_input` (lines 1098-1111): the accumulator is the
current lexicon choice paired with the number of warnings logged so far.  An
input naming a lexicon overwrites the choice (warning when a different
non-null choice is overruled); an input without a lexicon leaves the choice
unchanged only when the translator has no lexicon of its own, else it resets
the choice to the translator's single lexicon, or to none for a dict. -/
def selectRestrictLexiconStep (tl : TranslatorLexiconSetting) (acc : Option ℕ × ℕ)
    (inp : TranslatorInput) : Option ℕ × ℕ :=
  match inp.restrict_lexicon with
  | some lx => (some lx, acc.2 + (if acc.1 ≠ none ∧ acc.1 ≠ some lx then 1 else 0))
  | none =>
    match tl with
    | .noLexicon => acc
    | .single g => (some g, acc.2)
    | .multi _ => (none, acc.2)

/-- The vocabulary-restriction reference chosen for a batch by
`Translator._get_inference_input` (lines 1063 and 1098-1111), with the number
of conflict warnings. -/
def selectRestrictLexicon (tl : TranslatorLexiconSetting)
    (batch : List TranslatorInput) : Option ℕ × ℕ :=
  batch.foldl (selectRestrictLexiconStep tl) (none, 0)

/-- Number of adjacent unequal pairs in a list (used to state how many
conflict warnings the lexicon fold logs). -/
def adjacentChanges : List ℕ → ℕ
  | [] => 0
  | [_] => 0
  | a :: b :: l => (if a ≠ b then 1 else 0) + adjacentChanges (b :: l)

/-- Input naming lexicon 3. -/
def lexInpA : TranslatorInput :=
  { sentence_id := Sum.inl 10, tokens := ["a"], restrict_lexicon := some 3 }

/-- Input naming no lexicon. -/
def lexInpB : TranslatorInput := { sentence_id := Sum.inl 11, tokens := ["b"] }

/-- Embedding of `NBestTranslations` (lines 560-563). -/
structure NBestTranslations where
  target_ids_list : List TokenIds
  scores : List (List Score)
  deriving DecidableEq

/-- Embedding of `Translation` (lines 566-571). -/
structure Translation where
  target_ids : TokenIds
  scores : List Score
  nbest_translations : Option NBestTranslations := none
  estimated_reference_length : Option ℚ := none
  deriving DecidableEq

/-- A translation with no content, used only as a default for list indexing
in statements. -/
def blankTranslation : Translation := { target_ids := [], scores := [] }

/-- Embedding of `empty_translation` (lines 574-582): no target ids and a
single `-inf` score. -/
def emptyTranslation (addNbest : Bool) : Translation :=
  { target_ids := []
    scores := [⊥]
    nbest_translations := if addNbest then some ⟨[], []⟩ else none }

/-- Embedding of `IndexedTranslatorInput` (lines 585-596). -/
structure IndexedTranslatorInput where
  input_idx : ℕ
  chunk_idx : ℕ
  translator_input : TranslatorInput
  deriving DecidableEq

/-- Embedding of `IndexedTranslation` (lines 599-610). -/
structure IndexedTranslation where
  input_idx : ℕ
  chunk_idx : ℕ
  translation : Translation
  deriving DecidableEq

/-- Embedding of `_remove_target_prefix_tokens` (lines 672-681). -/
def removeTargetPrefixTokens (target_ids : TokenIds) (num : ℕ) : TokenIds :=
  target_ids.drop (min target_ids.length num)

/-- Elementwise numpy addition of two one-dimensional float arrays
(`np.add`, line 721), with numpy's broadcast rule for length-one operands;
a shape mismatch raises, modelled as `none`. -/
def npAdd (xs ys : List Score) : Option (List Score) :=
  if xs.length = ys.length then some (List.zipWith (· + ·) xs ys)
  else if xs.length = 1 then some (ys.map (fun y => xs.headD ⊥ + y))
  else if ys.length = 1 then some (xs.map (fun x => x + ys.headD ⊥))
  else none

/-- Accumulation of `estimated_reference_length` across chunks (lines
711-715): `None` until a chunk reports one, then a running sum. -/
def addErl (acc x : Option ℚ) : Option ℚ :=
  match x with
  | none => acc
  | some v =>
    match acc with
    | none => some v
    | some a => some (a + v)

/-- One iteration of the loop of `_concat_translations` (lines 703-721) on
the accumulator (concatenated target ids, accumulated reference length,
accumulated score array).  `isFinal` tells whether this is the last
translation (`idx == len(translations) - 1`): a non-final translation drops
its trailing stop token, which unconditionally reads
`translation.target_ids[-1][0]` and therefore raises (`none`) when its
`target_ids` is empty or ends in an empty position.  Unpacking
`score, *factor_scores = translation.scores` raises on an empty score list,
and `np.add` raises on a shape mismatch. -/
def concatStep (stopIds : List ℕ) (un : Score → ℕ → Option ℚ → Score) (isFinal : Bool)
    (t : Translation) (acc : TokenIds × Option ℚ × List Score) :
    Option (TokenIds × Option ℚ × List Score) := do
  let ext ←
    if isFinal then some t.target_ids
    else do
      let lastTok ← t.target_ids.getLast?
      let h ← lastTok.head?
      some (if h ∈ stopIds then t.target_ids.dropLast else t.target_ids)
  let sc0 ← t.scores.head?
  let raw := un sc0 t.target_ids.length t.estimated_reference_length
  let scNew ← npAdd acc.2.2 (raw :: t.scores.tail)
  some (acc.1 ++ ext, addErl acc.2.1 t.estimated_reference_length, scNew)

/-- The loop of `_concat_translations` over all translations in order. -/
def concatLoop (stopIds : List ℕ) (un : Score → ℕ → Option ℚ → Score) :
    List Translation → (TokenIds × Option ℚ × List Score) →
    Option (TokenIds × Option ℚ × List Score)
  | [], acc => some acc
  | [t], acc => concatStep stopIds un true t acc
  | t :: r :: rest, acc => do
    let acc2 ← concatStep stopIds un false t acc
    concatLoop stopIds un (r :: rest) acc2

/-- Embedding of `_concat_translations` (lines 684-726): a single translation
is returned unchanged; otherwise target ids are concatenated (dropping the
trailing stop token of every chunk but the last), reference lengths are
summed, per-chunk primary scores are un-normalized (`scorer.unnormalize`) and
summed elementwise with the factor scores into a zero array shaped like the
first translation's scores, and finally the accumulated primary score is
re-normalized (`scorer(...)`) with the total length and total reference
length.  `un` and `norm` stand for the external scorer's `unnormalize` and
`__call__`. -/
def concatTranslations (stopIds : List ℕ) (un norm : Score → ℕ → Option ℚ → Score)
    (translations : List Translation) : Option Translation :=
  match translations with
  | [] => none
  | [t] => some t
  | t0 :: t1 :: rest => do
    let res ← concatLoop stopIds un (t0 :: t1 :: rest)
      ([], none, t0.scores.map (fun _ => (0 : Score)))
    match res.2.2 with
    | [] => none
    | s0 :: srest =>
      some { target_ids := res.1
             scores := norm s0 res.1.length res.2.1 :: srest
             estimated_reference_length := res.2.1 }

/-- Property that every translation except the last has a non-empty
`target_ids` whose last position is a non-empty id tuple (so that the loop's
read of `target_ids[-1][0]` succeeds). -/
def nonFinalsOK : List Translation → Prop
  | [] => True
  | [_] => True
  | t :: r :: rest =>
    (t.target_ids ≠ [] ∧ t.target_ids.getLast?.getD [] ≠ []) ∧ nonFinalsOK (r :: rest)

/-- Modelled from the spec: the candidate scorer (class `CandidateScorer` of
`sockeye/beam_search.py`) is an external collaborator whose code is not under
`src/`.  Sections 4.4 and 8 of the spec describe it as converting between raw
(un-normalized) scores and length-normalized scores using the sequence length
and the estimated reference length, and require the conversion to be
invertible.  It is modelled as the standard normalized score: raw score
divided by a length penalty, minus a brevity penalty computed from the length
and the reference length; `unnormalize` is the announced inverse map. -/
structure CandidateScorer where
  lengthPenaltyOf : ℕ → ℚ
  brevityPenaltyOf : ℕ → Option ℚ → ℚ

/-- Normalization (`CandidateScorer.__call__`): raw score to
length-normalized score. -/
def CandidateScorer.normalize (s : CandidateScorer) (raw : ℚ) (l : ℕ) (ref : Option ℚ) : ℚ :=
  raw / s.lengthPenaltyOf l - s.brevityPenaltyOf l ref

/-- Un-normalization (`CandidateScorer.unnormalize`): length-normalized score
back to raw score. -/
def CandidateScorer.unnormalize (s : CandidateScorer) (score : ℚ) (l : ℕ)
    (ref : Option ℚ) : ℚ :=
  (score + s.brevityPenaltyOf l ref) * s.lengthPenaltyOf l

/-- Concrete scorer used as a witness: length penalty `l + 1`, no brevity
penalty. -/
def scorerW : CandidateScorer :=
  { lengthPenaltyOf := fun l => (l : ℚ) + 1
    brevityPenaltyOf := fun _ _ => 0 }

/-- Concrete abstract un-normalization function for witnesses (identity). -/
def unW : Score → ℕ → Option ℚ → Score := fun s _ _ => s

/-- Concrete abstract re-normalization function for witnesses (identity). -/
def normW : Score → ℕ → Option ℚ → Score := fun s _ _ => s

/-- One-position translation used in witnesses. -/
def tOkA : Translation := { target_ids := [[1]], scores := [((1 : ℚ) : Score)] }

/-- Another one-position translation used in witnesses. -/
def tOkB : Translation := { target_ids := [[2]], scores := [((1 : ℚ) : Score)] }

/-- A translation with empty target ids but a well-formed score list. -/
def tEmptyIds : Translation := { target_ids := [], scores := [((0 : ℚ) : Score)] }

/-- `C.TOKEN_SEPARATOR`. -/
def TOKEN_SEPARATOR : String := " "

/-- Per-instance configuration of a `Translator` as far as `translate` uses
it: the `max_input_length` property (line 884), `max_batch_size` (line 891),
`nbest_size`, the strip ids (line 804), the reversed target vocabularies
(line 800, modelled as total id-to-token maps, §6's external Vocabulary
interface), and the chunk-concatenation callable `self._concat_translations`
fixed at construction (lines 865-867). -/
structure TranslatorCfg where
  maxInputLength : ℕ
  maxBatchSize : ℕ
  nbestSize : ℕ
  stripIds : List ℕ
  vocabTargetsInv : List (ℕ → String)
  concatFn : List Translation → Option Translation

/-- Handling of one input in the chunking loop of `Translator.translate`
(lines 925-962): bad inputs, empty inputs, and inputs whose source prefix
meets or exceeds the maximum input length yield one immediate empty
translation; over-length inputs are split into chunks (each completed with
EOS); all others become one single chunk (with EOS).  Returns the immediate
translations and the indexed chunks this input contributes. -/
def perInput (maxInputLen : ℕ) (addNbest : Bool) (idx : ℕ) (inp : TranslatorInput) :
    List IndexedTranslation × List IndexedTranslatorInput :=
  if inp.isBad then ([⟨idx, 0, emptyTranslation addNbest⟩], [])
  else if inp.tokens.length = 0 then ([⟨idx, 0, emptyTranslation addNbest⟩], [])
  else if maxInputLen ≤ inp.numSourcePrefixTokens then
    ([⟨idx, 0, emptyTranslation addNbest⟩], [])
  else
    if maxInputLen - inp.numSourcePrefixTokens < inp.tokens.length then
      ([], (enumFromL 0 ((inp.chunksList (maxInputLen - inp.numSourcePrefixTokens)).map
            (fun c => c.withEos))).map
        (fun p => ⟨idx, p.1, p.2⟩))
    else ([], [⟨idx, 0, inp.withEos⟩])

/-- The chunking loop of `translate` (lines 920-970) over all inputs: the
list of immediate empty translations (bad, empty, over-prefixed inputs) and
the list of indexed chunks to be batched, in input order. -/
def splitInputs (maxInputLen : ℕ) (addNbest : Bool) (inputs : List TranslatorInput) :
    List IndexedTranslation × List IndexedTranslatorInput :=
  let parts := (enumFromL 0 inputs).map (fun p => perInput maxInputLen addNbest p.1 p.2)
  ((parts.map Prod.fst).flatten, (parts.map Prod.snd).flatten)

/-- The sort key of line 973: descending primary-token length (`sorted` with
`reverse=True`; Python's sort is stable and an insertion sort over this
non-strict relation is stable as well). -/
def chunkGE (a b : IndexedTranslatorInput) : Prop :=
  b.translator_input.tokens.length ≤ a.translator_input.tokens.length

instance : DecidableRel chunkGE := fun a b => by
  unfold chunkGE
  infer_instance

/-- The chunk sort of line 973. -/
def sortChunks (l : List IndexedTranslatorInput) : List IndexedTranslatorInput :=
  List.insertionSort chunkGE l

/-- The batch size chosen at line 975: the maximum batch size when filling up
batches, else the minimum of the chunk count and the maximum batch size. -/
def batchSizeFor (fill : Bool) (maxBS numChunks : ℕ) : ℕ :=
  if fill then maxBS else min numChunks maxBS

/-- Fuel-driven body of `utils.grouper`: consecutive groups of `bs` elements,
the last possibly short; a zero group size yields nothing. -/
def grouperGo (bs : ℕ) : ℕ → List α → List (List α)
  | 0, _ => []
  | _, [] => []
  | fuel + 1, l => if bs = 0 then [] else l.take bs :: grouperGo bs fuel (l.drop bs)

/-- `utils.grouper(iterable, size)` as used at line 978. -/
def grouper (bs : ℕ) (l : List α) : List (List α) :=
  grouperGo bs l.length l

/-- Batch padding of lines 981-984: under the fill-up policy a short batch is
extended by duplicating its first element up to the batch size.  `grouper`
never yields an empty batch, so the `batch[0]` read is safe; the unreachable
empty case is mapped to the empty batch. -/
def padBatch (fill : Bool) (bs : ℕ) (batch : List IndexedTranslatorInput) :
    List IndexedTranslatorInput :=
  if fill ∧ batch.length < bs then
    match batch with
    | [] => []
    | b :: _ => batch ++ List.replicate (bs - batch.length) b
  else batch

/-- One iteration of the batch loop (lines 978-996): pad, run the scorer
(`_translate_np ∘ _get_inference_input`, modelled by the per-item `oracle`
since the external Scorer returns one translation per batch item), truncate
the filler translations (`batch_translations[:-rest]`), and zip the padded
batch with the kept translations into indexed translations. -/
def runBatch (oracle : TranslatorInput → Translation) (fill : Bool) (bs : ℕ)
    (batch : List IndexedTranslatorInput) : List IndexedTranslation :=
  let padded := padBatch fill bs batch
  let translations := padded.map (fun c => oracle c.translator_input)
  let rest := bs - batch.length
  let kept := if fill ∧ 0 < rest then translations.take (padded.length - rest) else translations
  (padded.zip kept).map (fun p => ⟨p.1.input_idx, p.1.chunk_idx, p.2⟩)

/-- The whole batch loop over the sorted chunks. -/
def runBatches (oracle : TranslatorInput → Translation) (fill : Bool) (bs : ℕ)
    (chunks : List IndexedTranslatorInput) : List IndexedTranslation :=
  ((grouper bs chunks).map (runBatch oracle fill bs)).flatten

/-- All indexed translations collected by `translate` before re-sorting
(line 998): the immediate translations of bad/empty/over-prefixed inputs
followed by the batched translations of all chunks. -/
def translatedChunksOf (maxInputLen maxBS : ℕ) (addNbest : Bool)
    (oracle : TranslatorInput → Translation) (fill : Bool)
    (inputs : List TranslatorInput) : List IndexedTranslation :=
  let parts := splitInputs maxInputLen addNbest inputs
  let sorted := sortChunks parts.2
  parts.1 ++ runBatches oracle fill (batchSizeFor fill maxBS sorted.length) sorted

/-- The `(input_idx, chunk_idx)` order used by the sort at line 998 (the
`IndexedTranslation` dataclass is ordered lexicographically; distinct
elements never tie on both indices in this pipeline). -/
def lexLE (a b : IndexedTranslation) : Prop :=
  a.input_idx < b.input_idx ∨ (a.input_idx = b.input_idx ∧ a.chunk_idx ≤ b.chunk_idx)

instance : DecidableRel lexLE := fun a b => by
  unfold lexLE
  infer_instance

/-- The strict `(input_idx, chunk_idx)` order, used to state uniqueness. -/
def lexLT (a b : IndexedTranslation) : Prop :=
  a.input_idx < b.input_idx ∨ (a.input_idx = b.input_idx ∧ a.chunk_idx < b.chunk_idx)

/-- The sort of line 998 (`sorted(translated_chunks)`, a stable sort by
`(input_idx, chunk_idx)`). -/
def sortTranslations (l : List IndexedTranslation) : List IndexedTranslation :=
  List.insertionSort lexLE l

/-- `itertools.groupby(..., key=lambda t: t.input_idx)` (line 1003): maximal
runs of equal `input_idx`, each group consumed eagerly (`list(...)`). -/
def groupRuns : List IndexedTranslation → List (List IndexedTranslation)
  | [] => []
  | a :: rest =>
    match groupRuns rest with
    | [] => [[a]]
    | [] :: gs => [a] :: gs
    | (b :: g) :: gs =>
      if a.input_idx = b.input_idx then (a :: b :: g) :: gs else [a] :: (b :: g) :: gs

/-- Assembly of one input's group of chunk translations (lines 1004-1021):
a single chunk is taken as is (optionally stripping the target prefix when
the caller does not keep it); several chunks are first stripped (chunk 0
always, later chunks only when prefixes were replicated to all chunks) and
then merged through the configured concatenation callable. -/
def assembleGroup (concatFn : List Translation → Option Translation)
    (inp : TranslatorInput) (g : List IndexedTranslation) : Option Translation :=
  match g with
  | [it] =>
    some (if 0 < inp.numTargetPrefixTokens ∧ inp.keep_target_prefix_key = false then
      { it.translation with
        target_ids := removeTargetPrefixTokens it.translation.target_ids
          inp.numTargetPrefixTokens }
    else it.translation)
  | g =>
    let ts := g.map (fun it => it.translation)
    let ts2 := if 0 < inp.numTargetPrefixTokens ∧ inp.keep_target_prefix_key = false then
        (enumFromL 0 ts).map (fun p =>
          if p.1 = 0 ∨ inp.use_target_prefix_all_chunks then
            { p.2 with
              target_ids := removeTargetPrefixTokens p.2.target_ids
                inp.numTargetPrefixTokens }
          else p.2)
      else ts
    concatFn ts2

/-- The strip of lines 1150-1151: positions whose primary id is a strip id
are removed; reading `tokens[0]` of a position raises on an empty id tuple,
modelled as `none`. -/
def pruneTargetIds (stripIds : List ℕ) : TokenIds → Option TokenIds
  | [] => some []
  | tok :: rest => do
    let h ← tok.head?
    let r ← pruneTargetIds stripIds rest
    some (if h ∈ stripIds then r else tok :: r)

/-- Fuel-driven transposition, truncating at the shortest row: the behaviour
of Python `zip(*rows)` at line 1152. -/
def transposeMinGo : ℕ → List (List ℕ) → List (List ℕ)
  | 0, _ => []
  | fuel + 1, rows =>
    if rows.isEmpty ∨ rows.any (fun r => r.isEmpty) then []
    else (rows.map (fun r => r.headD 0)) :: transposeMinGo fuel (rows.map (fun r => r.tail))

/-- `zip(*rows)`: the number of emitted columns is the minimum row length,
which the first row's length always bounds, so it serves as fuel. -/
def transposeMin (rows : List (List ℕ)) : List (List ℕ) :=
  transposeMinGo (rows.headD []).length rows

/-- Per-factor vocabulary application of lines 1152-1157: factor `i` uses
`self.vocab_targets_inv[i]`, whose out-of-range access raises. -/
def mapVocab (vocabInv : List (ℕ → String)) : ℕ → List (List ℕ) →
    Option (List (List String))
  | _, [] => some []
  | i, seq :: rest => do
    let v ← vocabInv.get? i
    let r ← mapVocab vocabInv (i + 1) rest
    some (seq.map v :: r)

/-- Embedding of `Translator._get_translation_tokens_and_factors` (lines
1137-1166): strip, transpose into per-factor sequences, map through the
reversed vocabularies, fall back to empty outputs per factor when nothing
remains, and destructure into the primary translation and the secondary
factors (which raises when the model has no target factor at all). -/
def getTranslationTokensAndFactors (stripIds : List ℕ) (vocabInv : List (ℕ → String))
    (target_ids : TokenIds) :
    Option (List String × String × List (List String) × List String) := do
  let pruned ← pruneTargetIds stripIds target_ids
  let allTokens ← mapVocab vocabInv 0 (transposeMin pruned)
  let allTokens2 := if allTokens.isEmpty then
      List.replicate vocabInv.length ([] : List String)
    else allTokens
  let allStrings := allTokens2.map (fun toks => String.intercalate TOKEN_SEPARATOR toks)
  match allTokens2, allStrings with
  | tk :: ftk, st :: fstr => some (tk, st, ftk, fstr)
  | _, _ => none

/-- Embedding of `TranslatorOutput` (lines 493-522). -/
structure TranslatorOutput where
  sentence_id : SentenceId
  translation : String
  tokens : List String
  score : Score
  pass_through_dict : Option (List (String × String)) := none
  nbest_translations : Option (List String) := none
  nbest_tokens : Option (List (List String)) := none
  nbest_scores : Option (List (List Score)) := none
  factor_translations : List String := []
  factor_tokens : List (List String) := []
  factor_scores : List Score := []
  nbest_factor_translations : Option (List (List String)) := none
  nbest_factor_tokens : Option (List (List (List String))) := none
  deriving DecidableEq

/-- A blank output, used only as a default for list indexing in
statements. -/
def blankOutput : TranslatorOutput :=
  { sentence_id := Sum.inl 0, translation := "", tokens := [], score := ⊥ }

/-- The n-best branch of `_make_result` (lines 1189-1197): tokens, strings,
factor tokens and factor strings for every n-best hypothesis. -/
def nbestOutputs (stripIds : List ℕ) (vocabInv : List (ℕ → String)) :
    List TokenIds →
    Option (List (List String) × List String × List (List (List String))
      × List (List String))
  | [] => some ([], [], [], [])
  | tids :: rest => do
    let one ← getTranslationTokensAndFactors stripIds vocabInv tids
    let more ← nbestOutputs stripIds vocabInv rest
    some (one.1 :: more.1, one.2.1 :: more.2.1, one.2.2.1 :: more.2.2.1,
      one.2.2.2 :: more.2.2.2)

/-- Embedding of `Translator._make_result` (lines 1168-1211). -/
def makeResult (stripIds : List ℕ) (vocabInv : List (ℕ → String))
    (inp : TranslatorInput) (t : Translation) : Option TranslatorOutput := do
  let prim ← getTranslationTokensAndFactors stripIds vocabInv t.target_ids
  let score ← t.scores.head?
  match t.nbest_translations with
  | none =>
    some { sentence_id := inp.sentence_id
           translation := prim.2.1
           tokens := prim.1
           score := score
           pass_through_dict := inp.pass_through_dict
           factor_translations := prim.2.2.2
           factor_tokens := prim.2.2.1
           factor_scores := t.scores.tail }
  | some nb => do
    let nbo ← nbestOutputs stripIds vocabInv nb.target_ids_list
    some { sentence_id := inp.sentence_id
           translation := prim.2.1
           tokens := prim.1
           score := score
           pass_through_dict := inp.pass_through_dict
           nbest_translations := some nbo.2.1
           nbest_tokens := some nbo.1
           nbest_scores := some nb.scores
           factor_translations := prim.2.2.2
           factor_tokens := prim.2.2.1
           factor_scores := t.scores.tail
           nbest_factor_translations := some nbo.2.2.2
           nbest_factor_tokens := some nbo.2.2.1 }

/-- The result loop of lines 1002-1022 over `zip(trans_inputs, groups)`:
assemble each group into one translation and convert it to an output; every
exception propagates. -/
def translateResults (concatFn : List Translation → Option Translation)
    (stripIds : List ℕ) (vocabInv : List (ℕ → String)) :
    List (TranslatorInput × List IndexedTranslation) → Option (List TranslatorOutput)
  | [] => some []
  | (inp, g) :: rest => do
    let t ← assembleGroup concatFn inp g
    let out ← makeResult stripIds vocabInv inp t
    let outs ← translateResults concatFn stripIds vocabInv rest
    some (out :: outs)

/-- Embedding of `Translator.translate` (lines 906-1030): chunk, sort, batch,
translate through the per-item oracle, re-sort by `(input_idx, chunk_idx)`,
group by `input_idx`, and assemble one output per input. -/
def translate (cfg : TranslatorCfg) (oracle : TranslatorInput → Translation)
    (fill : Bool) (inputs : List TranslatorInput) : Option (List TranslatorOutput) :=
  let translated := sortTranslations
    (translatedChunksOf cfg.maxInputLength cfg.maxBatchSize (decide (1 < cfg.nbestSize))
      oracle fill inputs)
  let groups := groupRuns translated
  translateResults cfg.concatFn cfg.stripIds cfg.vocabTargetsInv (inputs.zip groups)

/-- The per-input reference group: what the pipeline ends up collecting for
one input, expressed without any batching. -/
def expectedGroup (maxInputLen : ℕ) (addNbest : Bool)
    (oracle : TranslatorInput → Translation) (idx : ℕ) (inp : TranslatorInput) :
    List IndexedTranslation :=
  (perInput maxInputLen addNbest idx inp).1
  ++ (perInput maxInputLen addNbest idx inp).2.map
      (fun c => ⟨c.input_idx, c.chunk_idx, oracle c.translator_input⟩)

/-- The reference groups for all inputs, in input order. -/
def expectedGroups (maxInputLen : ℕ) (addNbest : Bool)
    (oracle : TranslatorInput → Translation) (inputs : List TranslatorInput) :
    List (List IndexedTranslation) :=
  (enumFromL 0 inputs).map (fun p => expectedGroup maxInputLen addNbest oracle p.1 p.2)

/-- Well-formedness of a translation produced by the external search for one
chunk (§6: well-formed `SearchResult`): non-empty target ids, a uniform
number `F` of factors per position, `NS` scores, and well-formed n-best
entries. -/
def WFTranslation (F NS : ℕ) (t : Translation) : Prop :=
  t.target_ids ≠ []
  ∧ (∀ tok ∈ t.target_ids, tok.length = F)
  ∧ t.scores.length = NS
  ∧ (∀ nb, t.nbest_translations = some nb →
      ∀ tids ∈ nb.target_ids_list, ∀ tok ∈ tids, tok.length = F)

/-- What `_make_result` needs from a (possibly concatenated) translation. -/
def WFConcatResult (F : ℕ) (r : Translation) : Prop :=
  (∀ tok ∈ r.target_ids, tok.length = F)
  ∧ r.scores ≠ []
  ∧ (∀ nb, r.nbest_translations = some nb →
      ∀ tids ∈ nb.target_ids_list, ∀ tok ∈ tids, tok.length = F)

/-- A pair as consumed by `translateResults`, used as an indexing default. -/
def blankItem : TranslatorInput × List IndexedTranslation := (blankTInput, [])

/-- Ten-token request of the spec's batching scenario. -/
def inp10 : TranslatorInput :=
  { sentence_id := Sum.inl 0
    tokens := ["a", "b", "c", "d", "e", "f", "g", "h", "i", "j"] }

/-- Three-token request of the spec's batching scenario. -/
def inp3 : TranslatorInput := { sentence_id := Sum.inl 1, tokens := ["k", "l", "m"] }

/-- Concrete per-item oracle used in witnesses. -/
def oracleW : TranslatorInput → Translation := fun _ => tOkA

/-- Empty-token request of the spec's empty-input scenario. -/
def exEmptyInput : TranslatorInput := { sentence_id := Sum.inr "x", tokens := [] }

/-- Concrete configuration used in witnesses: nbest 1, one target factor. -/
def cfgW : TranslatorCfg :=
  { maxInputLength := 50
    maxBatchSize := 2
    nbestSize := 1
    stripIds := [0, 3]
    vocabTargetsInv := [fun _ => "w"]
    concatFn := concatTranslations [0, 3] unW normW }

end Sockeye

namespace Sockeye

theorem enumFromL_map_snd (f : α → β) : ∀ (n : ℕ) (l : List α),
    (enumFromL n l).map (fun p => f p.2) = l.map f := by
  intro n l
  induction l generalizing n with
  | nil => rfl
  | cons a l ih => simp [enumFromL, ih]

theorem enumFromL_length : ∀ (n : ℕ) (l : List α), (enumFromL n l).length = l.length := by
  intro n l
  induction l generalizing n with
  | nil => rfl
  | cons a l ih => simp [enumFromL, ih]

theorem rangeStep_eq (n L : ℕ) (hL : L ≠ 0) :
    rangeStep n L = (List.range ((n + L - 1) / L)).map (· * L) := by
  unfold rangeStep
  simp [hL]

theorem rangeStep_zero_n (L : ℕ) : rangeStep 0 L = [] := by
  unfold rangeStep
  by_cases h : L = 0
  · simp [h]
  · have h1 : 0 < L := Nat.pos_of_ne_zero h
    have h2 : (L - 1) / L = 0 := by
      apply Nat.div_eq_of_lt
      omega
    simp [h, h2]

theorem rangeStep_succ (n L : ℕ) (hL : 0 < L) (hn : 0 < n) :
    rangeStep n L = 0 :: (rangeStep (n - L) L).map (· + L) := by
  have hLne : L ≠ 0 := Nat.pos_iff_ne_zero.mp hL
  rw [rangeStep_eq n L hLne, rangeStep_eq (n - L) L hLne]
  have hcount : (n + L - 1) / L = (n - 1) / L + 1 := by
    have h1 : n + L - 1 = (n - 1) + L := by omega
    rw [h1, Nat.add_div_right _ hL]
  rw [hcount, List.range_succ_eq_map]
  simp only [List.map_cons, List.map_map, Nat.zero_mul]
  congr 1
  by_cases hc : n ≤ L
  · have h0 : (n - 1) / L = 0 := by
      apply Nat.div_eq_of_lt; omega
    have h1 : (n - L + L - 1) / L = 0 := by
      apply Nat.div_eq_of_lt; omega
    rw [h0, h1]
    simp
  · have h2 : n - L + L - 1 = n - 1 := by omega
    rw [h2]
    apply List.map_congr_left
    intro i _
    simp [Function.comp, Nat.succ_mul]

theorem join_slices (L : ℕ) (hL : 0 < L) : ∀ (n : ℕ) (l : List α), l.length = n →
    ((rangeStep n L).map (fun i => (l.drop i).take L)).flatten = l := by
  intro n
  induction n using Nat.strong_induction_on with
  | _ n ih =>
    intro l hlen
    rcases Nat.eq_zero_or_pos n with hz | hpos
    · subst hz
      rw [rangeStep_zero_n]
      simp
      exact List.length_eq_zero.mp hlen
    · rw [rangeStep_succ n L hL hpos]
      simp only [List.map_cons, List.map_map, List.flatten_cons]
      have hrec : ((rangeStep (n - L) L).map ((fun i => (l.drop i).take L) ∘ (· + L))).flatten
          = l.drop L := by
        have hcomp : ((fun i => (l.drop i).take L) ∘ (· + L))
            = (fun i => ((l.drop L).drop i).take L) := by
          funext i
          simp [Function.comp, List.drop_drop, Nat.add_comm]
        rw [hcomp]
        apply ih (n - L) (by omega)
        simp [hlen]
      rw [hrec]
      simp [List.take_append_drop]

theorem mkChunk_tokens (inp : TranslatorInput) (c i L : ℕ) :
    (inp.mkChunk c i L).tokens = (inp.tokens.drop i).take L := rfl

theorem mkChunk_factors (inp : TranslatorInput) (c i L : ℕ) :
    (inp.mkChunk c i L).factors
      = inp.factors.map (fun fs => fs.map (fun f => (f.drop i).take L)) := rfl

theorem pyLen_sub_numSourcePrefixTokens (inp : TranslatorInput) :
    inp.pyLen - inp.numSourcePrefixTokens = inp.tokens.length := by
  unfold TranslatorInput.pyLen
  omega

theorem getD_map (f : α → β) (dA : α) : ∀ (l : List α) (k : ℕ), k < l.length →
    (l.map f).getD k (f dA) = f (l.getD k dA) := by
  intro l
  induction l with
  | nil => intro k hk; simp at hk
  | cons a l ih =>
    intro k hk
    cases k with
    | zero => rfl
    | succ k =>
      simp only [List.map_cons, List.getD_cons_succ]
      exact ih k (by simpa using hk)

theorem getD_map' (f : α → β) (dA : α) (dB : β) (l : List α) (k : ℕ) (hk : k < l.length) :
    (l.map f).getD k dB = f (l.getD k dA) := by
  have h1 : (l.map f).getD k dB = (l.map f).getD k (f dA) := by
    have hk2 : k < (l.map f).length := by simpa using hk
    simp [List.getD_eq_getElem?_getD, List.getElem?_eq_getElem hk2]
  rw [h1]
  exact getD_map f dA l k hk

theorem chunksList_tokens_join (inp : TranslatorInput) (L : ℕ) (hL : 0 < L) :
    ((inp.chunksList L).map (fun c => c.tokens)).flatten = inp.tokens := by
  unfold TranslatorInput.chunksList
  rw [pyLen_sub_numSourcePrefixTokens, List.map_map]
  have hfun : ((fun c : TranslatorInput => c.tokens) ∘ (fun p : ℕ × ℕ => inp.mkChunk p.1 p.2 L))
      = (fun p : ℕ × ℕ => (inp.tokens.drop p.2).take L) := rfl
  rw [hfun, enumFromL_map_snd (fun i => (inp.tokens.drop i).take L) 0]
  exact join_slices L hL inp.tokens.length inp.tokens rfl

theorem chunksList_factor_join (inp : TranslatorInput) (L : ℕ) (hL : 0 < L)
    (fs : List (List String)) (hfs : inp.factors = some fs) (k : ℕ) (hk : k < fs.length)
    (hlen : (fs.getD k []).length = inp.tokens.length) :
    ((inp.chunksList L).map (fun c => (c.factors.getD []).getD k [])).flatten = fs.getD k [] := by
  unfold TranslatorInput.chunksList
  rw [pyLen_sub_numSourcePrefixTokens, List.map_map]
  have hfun : ((fun c : TranslatorInput => (c.factors.getD []).getD k [])
        ∘ (fun p : ℕ × ℕ => inp.mkChunk p.1 p.2 L))
      = (fun p : ℕ × ℕ => ((fs.getD k []).drop p.2).take L) := by
    funext p
    simp only [Function.comp, mkChunk_factors, hfs, Option.map_some', Option.getD_some]
    exact getD_map' (fun f => (f.drop p.2).take L) [] [] fs k hk
  rw [hfun, enumFromL_map_snd (fun i => ((fs.getD k []).drop i).take L) 0]
  exact join_slices L hL inp.tokens.length (fs.getD k []) hlen

theorem chunksList_tokens_le (inp : TranslatorInput) (L : ℕ) :
    ∀ c ∈ inp.chunksList L, c.tokens.length ≤ L := by
  intro c hc
  unfold TranslatorInput.chunksList at hc
  rcases List.mem_map.mp hc with ⟨p, _, hp⟩
  rw [← hp, mkChunk_tokens]
  exact List.length_take_le L _

/-- Claim C2: for every request with at least one token and every chunk size
`L ≥ 1`, concatenating the token sequences of the chunks produced by
`TranslatorInput.chunks`, in chunk order, reproduces the original token
sequence; the same holds for every secondary factor sequence (under the data
model invariant that factor sequences have the same length as `tokens`); and
every chunk holds at most `L` primary tokens. -/
theorem chunks_roundtrip (inp : TranslatorInput) (L : ℕ) (hL : 1 ≤ L)
    (_hJ : 1 ≤ inp.tokens.length)
    (hfac : ∀ fs, inp.factors = some fs →
      ∀ k, k < fs.length → (fs.getD k []).length = inp.tokens.length) :
    ((inp.chunksList L).map (fun c => c.tokens)).flatten = inp.tokens
    ∧ (∀ fs, inp.factors = some fs → ∀ k, k < fs.length →
        ((inp.chunksList L).map (fun c => (c.factors.getD []).getD k [])).flatten
          = fs.getD k [])
    ∧ ∀ c ∈ inp.chunksList L, c.tokens.length ≤ L := by
  refine ⟨chunksList_tokens_join inp L hL, ?_, chunksList_tokens_le inp L⟩
  intro fs hfs k hk
  exact chunksList_factor_join inp L hL fs hfs k hk (hfac fs hfs k hk)

/-- Witness for C2 at a concrete five-token, one-factor request and chunk
size two. -/
theorem chunks_roundtrip_witness :
    ((exInputC2.chunksList 2).map (fun c => c.tokens)).flatten = exInputC2.tokens
    ∧ (∀ fs, exInputC2.factors = some fs → ∀ k, k < fs.length →
        ((exInputC2.chunksList 2).map (fun c => (c.factors.getD []).getD k [])).flatten
          = fs.getD k [])
    ∧ ∀ c ∈ exInputC2.chunksList 2, c.tokens.length ≤ 2 := by
  apply chunks_roundtrip exInputC2 2 (by decide) (by decide)
  intro fs hfs k hk
  have hfs2 : fs = [["x", "y", "z", "w", "v"]] := by
    have : exInputC2.factors = some [["x", "y", "z", "w", "v"]] := rfl
    rw [this] at hfs
    exact (Option.some_inj.mp hfs).symm
  subst hfs2
  have hk0 : k = 0 := by
    simp only [List.length_singleton] at hk
    omega
  subst hk0
  decide

/-- Claim C3 (code bug): for the over-length request `exInputC3` whose
`use_target_prefix_all_chunks` flag is cleared, chunk 1 receives no
target-prefix tokens, yet it still receives the original target-prefix
factors, because line 229 of the source passes `self.target_prefix_factors`
instead of the chunk-gated local that lines 217-220 compute (and that the
accompanying comment describes). -/
theorem chunks_target_prefix_factors_bug :
    (exInputC3.chunksList 2).length = 2
    ∧ ((exInputC3.chunksList 2).getD 1 blankTInput).target_prefix_tokens = none
    ∧ ((exInputC3.chunksList 2).getD 1 blankTInput).target_prefix_factors = some [["f"]]
    ∧ exInputC3.use_target_prefix_all_chunks = false := by
  decide

theorem walkRev_length (hyp : ℕ → ℕ → ℕ) : ∀ (t p : ℕ), (walkRev hyp p t).length = t + 1 := by
  intro t
  induction t with
  | zero => intro p; rfl
  | succ t ih =>
    intro p
    simp [walkRev, ih]

theorem walkRev_spec (hyp : ℕ → ℕ → ℕ) : ∀ (t p : ℕ),
    ((walkRev hyp p t).reverse.getD t 0 = p)
    ∧ (∀ i, i < t → (walkRev hyp p t).reverse.getD i 0
        = hyp ((walkRev hyp p t).reverse.getD (i + 1) 0) (i + 1)) := by
  intro t
  induction t with
  | zero =>
    intro p
    exact ⟨rfl, fun i hi => absurd hi (Nat.not_lt_zero i)⟩
  | succ t ih =>
    intro p
    have hrev : (walkRev hyp p (t + 1)).reverse
        = (walkRev hyp (hyp p (t + 1)) t).reverse ++ [p] := by
      simp [walkRev]
    have hlen : (walkRev hyp (hyp p (t + 1)) t).reverse.length = t + 1 := by
      simp [walkRev_length]
    have hleft : ∀ j, j < t + 1 → (walkRev hyp p (t + 1)).reverse.getD j 0
        = (walkRev hyp (hyp p (t + 1)) t).reverse.getD j 0 := by
      intro j hj
      rw [hrev]
      exact List.getD_append _ _ _ _ (by omega)
    have hlast : (walkRev hyp p (t + 1)).reverse.getD (t + 1) 0 = p := by
      rw [hrev, List.getD_append_right _ _ _ _ (by omega)]
      simp [hlen]
    refine ⟨hlast, ?_⟩
    intro i hi
    rcases Nat.lt_or_ge i t with hit | hit
    · rw [hleft i (by omega), hleft (i + 1) (by omega)]
      exact (ih (hyp p (t + 1))).2 i hit
    · have hieq : i = t := by omega
      rw [hieq, hleft t (by omega), hlast]
      exact (ih (hyp p (t + 1))).1

/-- Claim C4: over a backpointer matrix `hyp` recording `T ≥ 1` decoding
steps (the matrix has `T + 1` columns, the extra first column being the
initial layout; the spec's recurrence `slot_at(t) =
backpointers[slot_at(t+1), t+1]` itself reads column `T`), the backward
traceback of `Translator._get_best_word_indices_for_kth_hypotheses` visits
exactly `T` positions; the walk starts from the requested rank's slot at the
final step (`result[T-1] = hyp (ks[i]) T`), and every earlier position's slot
is read off the backpointer entry of the slot recorded at the next position,
never recomputed. -/
theorem traceback_visits_T_positions (hyp : ℕ → ℕ → ℕ) (ks : List ℕ) (T i : ℕ)
    (hT : 1 ≤ T) (hi : i < ks.length)
    (r : List ℕ) (hr : r = (getBestWordIndicesForKthHypotheses ks hyp (T + 1)).getD i []) :
    r.length = T
    ∧ r.getD (T - 1) 0 = hyp (ks.getD i 0) T
    ∧ ∀ t, t + 1 < T → r.getD t 0 = hyp (r.getD (t + 1) 0) (t + 1) := by
  have hrow : r = traceback hyp (ks.getD i 0) (T + 1) := by
    rw [hr]
    unfold getBestWordIndicesForKthHypotheses
    exact getD_map' (fun k => traceback hyp k (T + 1)) 0 [] ks i hi
  have htb : traceback hyp (ks.getD i 0) (T + 1)
      = (walkRev hyp (hyp (ks.getD i 0) T) (T - 1)).reverse := by
    unfold traceback
    have h1 : ¬ (T + 1 ≤ 1) := by omega
    simp only [h1, if_false]
    have h2 : T + 1 - 1 = T := by omega
    have h3 : T + 1 - 2 = T - 1 := by omega
    rw [h2, h3]
  have hspec := walkRev_spec hyp (T - 1) (hyp (ks.getD i 0) T)
  rw [hrow, htb]
  refine ⟨?_, ?_, ?_⟩
  · rw [List.length_reverse, walkRev_length]
    omega
  · exact hspec.1
  · intro t ht
    exact hspec.2 t (by omega)

/-- Witness for C4: a concrete backpointer matrix with three columns
(`T = 2` recorded steps), rank list `[1]`. -/
theorem traceback_visits_T_positions_witness :
    ((getBestWordIndicesForKthHypotheses [1] hypW 3).getD 0 []).length = 2
    ∧ ((getBestWordIndicesForKthHypotheses [1] hypW 3).getD 0 []).getD 1 0 = hypW 1 2
    ∧ ∀ t, t + 1 < 2 →
        ((getBestWordIndicesForKthHypotheses [1] hypW 3).getD 0 []).getD t 0
          = hypW (((getBestWordIndicesForKthHypotheses [1] hypW 3).getD 0 []).getD (t + 1) 0)
              (t + 1) := by
  have h := traceback_visits_T_positions hypW [1] 2 0 (by decide) (by decide)
    ((getBestWordIndicesForKthHypotheses [1] hypW 3).getD 0 []) rfl
  exact ⟨h.1, h.2.1, h.2.2⟩

theorem selectRestrictLexicon_none_go (batch : List TranslatorInput) :
    ∀ (c : ℕ) (w : ℕ),
    batch.foldl (selectRestrictLexiconStep .noLexicon) (some c, w)
      = ((c :: batch.filterMap (fun inp => inp.restrict_lexicon)).getLast?,
         w + adjacentChanges (c :: batch.filterMap (fun inp => inp.restrict_lexicon))) := by
  induction batch with
  | nil => intro c w; simp [adjacentChanges]
  | cons inp rest ih =>
    intro c w
    rw [List.foldl_cons]
    cases hlx : inp.restrict_lexicon with
    | none =>
      have hstep : selectRestrictLexiconStep .noLexicon (some c, w) inp = (some c, w) := by
        unfold selectRestrictLexiconStep
        rw [hlx]
      rw [hstep, ih c w, List.filterMap_cons, hlx]
    | some lx =>
      have hstep : selectRestrictLexiconStep .noLexicon (some c, w) inp
          = (some lx, w + (if c ≠ lx then 1 else 0)) := by
        unfold selectRestrictLexiconStep
        rw [hlx]
        simp only []
        congr 1
        by_cases hceq : c = lx
        · subst hceq; simp
        · have : (some c ≠ (none : Option ℕ) ∧ some c ≠ some lx) := by
            constructor
            · simp
            · simp [hceq]
          simp [this, hceq]
      rw [hstep, ih lx _]
      simp only [List.filterMap_cons, hlx]
      rw [Prod.mk.injEq]
      constructor
      · simp [List.getLast?_cons_cons]
      · simp only [adjacentChanges]
        omega

/-- Claim C8 (amended): the vocabulary-restriction fold of
`_get_inference_input` is a left-to-right pass that never raises: an input
naming a lexicon overwrites the current choice, warning (not failing) when it
overrules a different non-null choice; an input without a lexicon leaves the
choice untouched only when the translator itself holds no lexicon — with a
translator-level lexicon it resets the choice to the translator's single
lexicon, or to none when the translator holds a dict.  Hence when the
translator holds no lexicon, the chosen reference is the last non-null
lexicon named by any input in the batch, and the number of warnings is the
number of adjacent changes in the sequence of named lexicons. -/
theorem lexicon_selection_amended :
    (∀ batch : List TranslatorInput,
      selectRestrictLexicon .noLexicon batch
        = ((batch.filterMap (fun inp => inp.restrict_lexicon)).getLast?,
           adjacentChanges (batch.filterMap (fun inp => inp.restrict_lexicon))))
    ∧ (∀ (g : ℕ) (batch : List TranslatorInput) (inp : TranslatorInput),
        inp.restrict_lexicon = none →
        (selectRestrictLexicon (.single g) (batch ++ [inp])).1 = some g)
    ∧ (∀ (ids : List ℕ) (batch : List TranslatorInput) (inp : TranslatorInput),
        inp.restrict_lexicon = none →
        (selectRestrictLexicon (.multi ids) (batch ++ [inp])).1 = none) := by
  refine ⟨?_, ?_, ?_⟩
  · intro batch
    induction batch with
    | nil => simp [selectRestrictLexicon, adjacentChanges]
    | cons inp rest ih =>
      unfold selectRestrictLexicon
      rw [List.foldl_cons]
      cases hlx : inp.restrict_lexicon with
      | none =>
        have hstep : selectRestrictLexiconStep .noLexicon (none, 0) inp = (none, 0) := by
          unfold selectRestrictLexiconStep
          rw [hlx]
        rw [hstep]
        simp only [List.filterMap_cons, hlx]
        exact ih
      | some lx =>
        have hstep : selectRestrictLexiconStep .noLexicon (none, 0) inp = (some lx, 0) := by
          unfold selectRestrictLexiconStep
          rw [hlx]
          simp
        rw [hstep]
        simp only [List.filterMap_cons, hlx]
        have hgo := selectRestrictLexicon_none_go rest lx 0
        rw [Nat.zero_add] at hgo
        exact hgo
  · intro g batch inp hnone
    unfold selectRestrictLexicon
    rw [List.foldl_append, List.foldl_cons, List.foldl_nil]
    unfold selectRestrictLexiconStep
    rw [hnone]
  · intro ids batch inp hnone
    unfold selectRestrictLexicon
    rw [List.foldl_append, List.foldl_cons, List.foldl_nil]
    unfold selectRestrictLexiconStep
    rw [hnone]

/-- Counterexample to claim C8 as stated: in a batch whose first input names
lexicon 3 and whose second input names none, under a translator that itself
holds a single lexicon 7, the chosen reference is the translator's lexicon 7,
not the last non-null lexicon (3) named by an input — the lexicon-less second
input overrides the first input's choice. -/
theorem lexicon_last_nonnull_counterexample :
    (selectRestrictLexicon (.single 7) [lexInpA, lexInpB]).1 = some 7
    ∧ ([lexInpA, lexInpB].filterMap (fun inp => inp.restrict_lexicon)).getLast? = some 3
    ∧ (some 7 : Option ℕ) ≠ some 3 := by
  decide

/-- Witness for the amended C8 at a concrete batch. -/
theorem lexicon_selection_amended_witness :
    selectRestrictLexicon .noLexicon [lexInpA, lexInpB] = (some 3, 0)
    ∧ (selectRestrictLexicon (.single 7) ([lexInpA] ++ [lexInpB])).1 = some 7 := by
  constructor
  · rw [lexicon_selection_amended.1 [lexInpA, lexInpB]]
    decide
  · exact lexicon_selection_amended.2.1 7 [lexInpA] lexInpB rfl

theorem npAdd_same (xs ys : List Score) (h : xs.length = ys.length) :
    npAdd xs ys = some (List.zipWith (· + ·) xs ys) := by
  unfold npAdd
  simp [h]

theorem concatStep_final_eq (stop : List ℕ) (un : Score → ℕ → Option ℚ → Score)
    (t : Translation) (acc : TokenIds × Option ℚ × List Score)
    (hsc : t.scores ≠ []) (hlen : acc.2.2.length = t.scores.length) :
    ∃ zs, concatStep stop un true t acc
        = some (acc.1 ++ t.target_ids, addErl acc.2.1 t.estimated_reference_length, zs)
      ∧ zs.length = acc.2.2.length := by
  obtain ⟨s0, tail, hsc2⟩ := List.exists_cons_of_ne_nil hsc
  have hlen2 : acc.2.2.length
      = (un s0 t.target_ids.length t.estimated_reference_length :: tail).length := by
    rw [hlen, hsc2]
    simp
  refine ⟨List.zipWith (· + ·) acc.2.2
    (un s0 t.target_ids.length t.estimated_reference_length :: tail), ?_, ?_⟩
  · unfold concatStep
    rw [hsc2]
    simp [npAdd_same _ _ hlen2]
  · rw [List.length_zipWith]
    omega

theorem concatStep_nonfinal_eq (stop : List ℕ) (un : Score → ℕ → Option ℚ → Score)
    (t : Translation) (acc : TokenIds × Option ℚ × List Score)
    (hids : t.target_ids ≠ []) (hlast : t.target_ids.getLast?.getD [] ≠ [])
    (hsc : t.scores ≠ []) (hlen : acc.2.2.length = t.scores.length) :
    ∃ ext zs, concatStep stop un false t acc
        = some (acc.1 ++ ext, addErl acc.2.1 t.estimated_reference_length, zs)
      ∧ zs.length = acc.2.2.length
      ∧ (∀ tok ∈ ext, tok ∈ t.target_ids) := by
  obtain ⟨s0, tail, hsc2⟩ := List.exists_cons_of_ne_nil hsc
  have hgl : t.target_ids.getLast? = some (t.target_ids.getLast hids) :=
    List.getLast?_eq_getLast _ hids
  have hlastne : t.target_ids.getLast hids ≠ [] := by
    rw [hgl] at hlast
    simpa using hlast
  obtain ⟨h0, t0, hlt⟩ := List.exists_cons_of_ne_nil hlastne
  have hlen2 : acc.2.2.length
      = (un s0 t.target_ids.length t.estimated_reference_length :: tail).length := by
    rw [hlen, hsc2]
    simp
  refine ⟨if h0 ∈ stop then t.target_ids.dropLast else t.target_ids,
    List.zipWith (· + ·) acc.2.2
      (un s0 t.target_ids.length t.estimated_reference_length :: tail), ?_, ?_, ?_⟩
  · unfold concatStep
    rw [hgl, hlt, hsc2]
    simp [npAdd_same _ _ hlen2]
  · rw [List.length_zipWith]
    omega
  · intro tok htok
    by_cases hmem : h0 ∈ stop
    · rw [if_pos hmem] at htok
      exact List.dropLast_subset _ htok
    · rw [if_neg hmem] at htok
      exact htok

theorem concatStep_nonfinal_none (stop : List ℕ) (un : Score → ℕ → Option ℚ → Score)
    (t : Translation) (acc : TokenIds × Option ℚ × List Score)
    (hids : t.target_ids = []) :
    concatStep stop un false t acc = none := by
  unfold concatStep
  rw [hids]
  simp

theorem concatLoop_none_of_empty (stop : List ℕ) (un : Score → ℕ → Option ℚ → Score) :
    ∀ (ts : List Translation) (acc : TokenIds × Option ℚ × List Score),
    (∃ i, i + 1 < ts.length ∧ (ts.getD i blankTranslation).target_ids = []) →
    concatLoop stop un ts acc = none := by
  intro ts
  induction ts with
  | nil =>
    intro acc h
    obtain ⟨i, hi, _⟩ := h
    simp at hi
  | cons t rest ih =>
    intro acc h
    obtain ⟨i, hi, hempty⟩ := h
    cases rest with
    | nil => simp at hi
    | cons r rest2 =>
      cases i with
      | zero =>
        have hstep : concatStep stop un false t acc = none :=
          concatStep_nonfinal_none stop un t acc (by simpa using hempty)
        simp [concatLoop, hstep]
      | succ j =>
        cases hstep : concatStep stop un false t acc with
        | none => simp [concatLoop, hstep]
        | some acc2 =>
          simp only [concatLoop, hstep, Option.some_bind]
          exact ih acc2 ⟨j, by simpa using hi, by simpa using hempty⟩

theorem concatLoop_spec (stop : List ℕ) (un : Score → ℕ → Option ℚ → Score)
    (NS : ℕ) (hNS : 0 < NS) :
    ∀ (ts : List Translation) (acc : TokenIds × Option ℚ × List Score),
    acc.2.2.length = NS → nonFinalsOK ts → (∀ t ∈ ts, t.scores.length = NS) →
    ∃ res, concatLoop stop un ts acc = some res
      ∧ res.2.2.length = NS
      ∧ (∀ F, (∀ tok ∈ acc.1, tok.length = F) →
          (∀ t ∈ ts, ∀ tok ∈ t.target_ids, tok.length = F) →
          ∀ tok ∈ res.1, tok.length = F)
      ∧ (ts ≠ [] → (ts.getLast?.getD blankTranslation).target_ids ≠ [] → res.1 ≠ []) := by
  intro ts
  induction ts with
  | nil =>
    intro acc hacc _ _
    refine ⟨acc, rfl, hacc, ?_, ?_⟩
    · intro F hacc1 _ tok htok
      exact hacc1 tok htok
    · intro hne
      exact absurd rfl hne
  | cons t rest ih =>
    intro acc hacc hnf hscores
    cases rest with
    | nil =>
      have hsc : t.scores ≠ [] := by
        have := hscores t (by simp)
        intro hcon
        rw [hcon] at this
        simp at this
        omega
      have hlen : acc.2.2.length = t.scores.length := by
        rw [hacc, hscores t (by simp)]
      obtain ⟨zs, heq, hzs⟩ := concatStep_final_eq stop un t acc hsc hlen
      refine ⟨_, heq, by rw [hzs, hacc], ?_, ?_⟩
      · intro F hacc1 hts tok htok
        rcases List.mem_append.mp htok with hmem | hmem
        · exact hacc1 tok hmem
        · exact hts t (by simp) tok hmem
      · intro _ hlastne hcon
        rcases List.append_eq_nil.mp hcon with ⟨_, h2⟩
        simp at hlastne
        exact hlastne h2
    | cons r rest2 =>
      have hnf2 : (t.target_ids ≠ [] ∧ t.target_ids.getLast?.getD [] ≠ [])
          ∧ nonFinalsOK (r :: rest2) := hnf
      have hsc : t.scores ≠ [] := by
        have := hscores t (by simp)
        intro hcon
        rw [hcon] at this
        simp at this
        omega
      have hlen : acc.2.2.length = t.scores.length := by
        rw [hacc, hscores t (by simp)]
      obtain ⟨ext, zs, heq, hzs, hsub⟩ :=
        concatStep_nonfinal_eq stop un t acc hnf2.1.1 hnf2.1.2 hsc hlen
      have hacc2 : ((acc.1 ++ ext, addErl acc.2.1 t.estimated_reference_length,
          zs) : TokenIds × Option ℚ × List Score).2.2.length = NS := by
        simpa [hzs] using hacc
      obtain ⟨res, hres, hreslen, hresF, hresne⟩ :=
        ih (acc.1 ++ ext, addErl acc.2.1 t.estimated_reference_length, zs) hacc2 hnf2.2
          (fun u hu => hscores u (List.mem_cons_of_mem t hu))
      refine ⟨res, ?_, hreslen, ?_, ?_⟩
      · simp only [concatLoop, heq, Option.some_bind]
        exact hres
      · intro F hacc1 hts tok htok
        refine hresF F ?_ (fun u hu => hts u (List.mem_cons_of_mem t hu)) tok htok
        intro tok2 htok2
        rcases List.mem_append.mp htok2 with hmem | hmem
        · exact hacc1 tok2 hmem
        · exact hts t (by simp) tok2 (hsub tok2 hmem)
      · intro _ hlastne
        refine hresne (by simp) ?_
        rw [List.getLast?_cons_cons] at hlastne
        exact hlastne

/-- Claim C10: `_concat_translations` is total only when every translation
but the last has non-empty target ids — for each non-final chunk it reads
`target_ids[-1][0]` unconditionally, so any list of two or more translations
in which some non-final translation has empty `target_ids` makes the
operation raise (evaluate to `none`) instead of returning a `Translation`;
conversely, when every non-final chunk has a non-empty last position (and
every chunk carries a non-empty score list of the common factor count), the
operation returns a `Translation`. -/
theorem concat_translations_totality (stop : List ℕ)
    (un norm : Score → ℕ → Option ℚ → Score) (NS : ℕ) (hNS : 0 < NS) :
    (∀ ts : List Translation,
      (∃ i, i + 1 < ts.length ∧ (ts.getD i blankTranslation).target_ids = []) →
      concatTranslations stop un norm ts = none)
    ∧ (∀ ts : List Translation, ts ≠ [] → nonFinalsOK ts →
      (∀ t ∈ ts, t.scores.length = NS) →
      (concatTranslations stop un norm ts).isSome) := by
  constructor
  · intro ts h
    obtain ⟨i, hi, hempty⟩ := h
    cases ts with
    | nil => simp at hi
    | cons t0 rest =>
      cases rest with
      | nil =>
        simp only [List.length_cons, List.length_nil] at hi
        omega
      | cons t1 rest2 =>
        have hloop := concatLoop_none_of_empty stop un (t0 :: t1 :: rest2)
          ([], none, t0.scores.map (fun _ => (0 : Score))) ⟨i, hi, hempty⟩
        simp only [concatTranslations]
        rw [hloop]
        rfl
  · intro ts hne hnf hscores
    cases ts with
    | nil => exact absurd rfl hne
    | cons t0 rest =>
      cases rest with
      | nil => simp [concatTranslations]
      | cons t1 rest2 =>
        have hacc : (([], none, t0.scores.map (fun _ => (0 : Score)))
            : TokenIds × Option ℚ × List Score).2.2.length = NS := by
          simp [hscores t0 (by simp)]
        obtain ⟨res, hres, hreslen, _, _⟩ :=
          concatLoop_spec stop un NS hNS (t0 :: t1 :: rest2) _ hacc hnf hscores
        obtain ⟨rids, rerl, rsc⟩ := res
        simp only at hreslen
        have hcons : ∃ s0 srest, rsc = s0 :: srest := by
          apply List.exists_cons_of_ne_nil
          intro hcon
          rw [hcon] at hreslen
          simp at hreslen
          omega
        obtain ⟨s0, srest, hsp⟩ := hcons
        subst hsp
        simp only [concatTranslations]
        rw [hres]
        rfl

/-- Witness for C10: concatenating a list whose first (non-final) element has
empty target ids raises; concatenating two well-formed one-position
translations succeeds. -/
theorem concat_translations_totality_witness :
    concatTranslations [] unW normW [tEmptyIds, tOkA] = none
    ∧ (concatTranslations [] unW normW [tOkA, tOkB]).isSome := by
  have h := concat_translations_totality [] unW normW 1 (by decide)
  constructor
  · exact h.1 [tEmptyIds, tOkA] ⟨0, by decide, by decide⟩
  · refine h.2 [tOkA, tOkB] (by decide) ⟨⟨by decide, by decide⟩, trivial⟩ ?_
    intro t ht
    rcases List.mem_cons.mp ht with h1 | h1
    · rw [h1]; decide
    · rcases List.mem_cons.mp h1 with h2 | h2
      · rw [h2]; decide
      · simp at h2

/-- Claim C9: un-normalizing a primary score with the scorer at a given
length and reference length and re-normalizing it with the same length and
reference length returns the original score exactly (in the rational model of
float scores), whenever the length penalty is non-zero; and the chunk
reassembler `_concat_translations` returns a single-chunk translation
unchanged, so its score recombination is score-neutral on single chunks. -/
theorem scorer_roundtrip (s : CandidateScorer) (score : ℚ) (l : ℕ) (ref : Option ℚ)
    (h : s.lengthPenaltyOf l ≠ 0) :
    s.normalize (s.unnormalize score l ref) l ref = score
    ∧ ∀ (stop : List ℕ) (un norm : Score → ℕ → Option ℚ → Score) (t : Translation),
        concatTranslations stop un norm [t] = some t := by
  constructor
  · unfold CandidateScorer.normalize CandidateScorer.unnormalize
    field_simp
  · intro stop un norm t
    rfl

/-- Witness for C9 at the concrete scorer `scorerW`, score 3, length 2. -/
theorem scorer_roundtrip_witness :
    scorerW.normalize (scorerW.unnormalize 3 2 none) 2 none = 3
    ∧ concatTranslations [] unW normW [tOkA] = some tOkA := by
  have h := scorer_roundtrip scorerW 3 2 none (by norm_num [scorerW])
  exact ⟨h.1, h.2 [] unW normW tOkA⟩

theorem grouperGo_fuel (bs : ℕ) : ∀ (fuel : ℕ) (l : List α), l.length ≤ fuel →
    grouperGo bs fuel l = grouperGo bs l.length l := by
  intro fuel
  induction fuel using Nat.strong_induction_on with
  | _ fuel ih =>
    intro l hl
    cases fuel with
    | zero =>
      have : l = [] := by
        cases l with
        | nil => rfl
        | cons a l => simp at hl
      subst this
      rfl
    | succ f =>
      cases l with
      | nil => rfl
      | cons a l' =>
        by_cases hbs : bs = 0
        · simp [grouperGo, hbs]
        · have hlen : (a :: l').length = l'.length + 1 := rfl
          rw [hlen]
          show (if bs = 0 then [] else (a :: l').take bs :: grouperGo bs f ((a :: l').drop bs))
            = (if bs = 0 then [] else
                (a :: l').take bs :: grouperGo bs l'.length ((a :: l').drop bs))
          rw [if_neg hbs, if_neg hbs]
          congr 1
          have hdrop : ((a :: l').drop bs).length ≤ f := by
            simp only [List.length_drop]
            simp only [List.length_cons] at hl ⊢
            omega
          have hdrop2 : ((a :: l').drop bs).length ≤ l'.length := by
            simp only [List.length_drop, List.length_cons]
            omega
          rw [ih f (by omega) _ hdrop, ih l'.length (by omega) _ hdrop2]

theorem grouper_cons (bs : ℕ) (hbs : bs ≠ 0) (l : List α) (hl : l ≠ []) :
    grouper bs l = l.take bs :: grouper bs (l.drop bs) := by
  obtain ⟨a, l', rfl⟩ := List.exists_cons_of_ne_nil hl
  unfold grouper
  show grouperGo bs (l'.length + 1) (a :: l')
    = (a :: l').take bs :: grouperGo bs ((a :: l').drop bs).length ((a :: l').drop bs)
  show (if bs = 0 then [] else (a :: l').take bs :: grouperGo bs l'.length ((a :: l').drop bs))
    = (a :: l').take bs :: grouperGo bs ((a :: l').drop bs).length ((a :: l').drop bs)
  rw [if_neg hbs]
  congr 1
  apply grouperGo_fuel
  simp only [List.length_drop, List.length_cons]
  omega

theorem grouper_join (bs : ℕ) (hbs : 0 < bs) : ∀ (n : ℕ) (l : List α), l.length ≤ n →
    (grouper bs l).flatten = l := by
  intro n
  induction n with
  | zero =>
    intro l hl
    have : l = [] := by
      cases l with
      | nil => rfl
      | cons a l => simp at hl
    subst this
    rfl
  | succ n ih =>
    intro l hl
    cases hl2 : l with
    | nil => rfl
    | cons a l' =>
      rw [← hl2, grouper_cons bs (by omega) l (by rw [hl2]; simp)]
      simp only [List.flatten_cons]
      rw [ih (l.drop bs) (by subst hl2; simp only [List.length_drop, List.length_cons] at hl ⊢; omega)]
      exact List.take_append_drop bs l

theorem grouper_mem (bs : ℕ) (hbs : 0 < bs) : ∀ (n : ℕ) (l : List α), l.length ≤ n →
    ∀ b ∈ grouper bs l, b ≠ [] ∧ b.length ≤ bs := by
  intro n
  induction n with
  | zero =>
    intro l hl b hb
    have : l = [] := by
      cases l with
      | nil => rfl
      | cons a l => simp at hl
    subst this
    simp [grouper, grouperGo] at hb
  | succ n ih =>
    intro l hl b hb
    cases hl2 : l with
    | nil =>
      subst hl2
      simp [grouper, grouperGo] at hb
    | cons a l' =>
      rw [grouper_cons bs (by omega) l (by rw [hl2]; simp)] at hb
      rcases List.mem_cons.mp hb with hb1 | hb1
      · subst hb1
        constructor
        · rw [Ne, List.take_eq_nil_iff]
          push_neg
          constructor
          · omega
          · rw [hl2]; simp
        · exact List.length_take_le bs l
      · exact ih (l.drop bs)
          (by subst hl2; simp only [List.length_drop, List.length_cons] at hl ⊢; omega) b hb1

theorem zip_append_left : ∀ (l1 : List α) (l' : List α) (l2 : List β),
    l2.length ≤ l1.length → (l1 ++ l').zip l2 = l1.zip l2 := by
  intro l1
  induction l1 with
  | nil =>
    intro l' l2 h
    have : l2 = [] := by
      cases l2 with
      | nil => rfl
      | cons b l2 => simp at h
    subst this
    simp
  | cons a l1 ih =>
    intro l' l2 h
    cases l2 with
    | nil => simp
    | cons b l2 =>
      simp only [List.cons_append, List.zip_cons_cons]
      rw [ih l' l2 (by simpa using h)]

theorem zip_self_map (oracle : TranslatorInput → Translation)
    (batch : List IndexedTranslatorInput) :
    batch.zip (batch.map (fun c => oracle c.translator_input))
      = batch.map (fun c => (c, oracle c.translator_input)) := by
  have h := List.zip_map' id (fun c => oracle c.translator_input) batch
  simpa using h

theorem runBatch_eq (oracle : TranslatorInput → Translation) (fill : Bool) (bs : ℕ)
    (batch : List IndexedTranslatorInput) (hne : batch ≠ []) (hlen : batch.length ≤ bs) :
    runBatch oracle fill bs batch
      = batch.map (fun c => ⟨c.input_idx, c.chunk_idx, oracle c.translator_input⟩) := by
  obtain ⟨b, bt, rfl⟩ := List.exists_cons_of_ne_nil hne
  by_cases hpad : fill = true ∧ (b :: bt).length < bs
  · have hpadded : padBatch fill bs (b :: bt)
        = (b :: bt) ++ List.replicate (bs - (b :: bt).length) b := by
      unfold padBatch
      rw [if_pos (by exact ⟨by simp [hpad.1], hpad.2⟩)]
    unfold runBatch
    rw [hpadded]
    have hrest : 0 < bs - (b :: bt).length := by omega
    have hkept : (if fill ∧ 0 < bs - (b :: bt).length then
          ((((b :: bt) ++ List.replicate (bs - (b :: bt).length) b).map
            (fun c => oracle c.translator_input)).take
            ((((b :: bt) ++ List.replicate (bs - (b :: bt).length) b)).length
              - (bs - (b :: bt).length)))
        else (((b :: bt) ++ List.replicate (bs - (b :: bt).length) b).map
            (fun c => oracle c.translator_input)))
        = (b :: bt).map (fun c => oracle c.translator_input) := by
      rw [if_pos ⟨by simp [hpad.1], hrest⟩]
      have hplen : (((b :: bt) ++ List.replicate (bs - (b :: bt).length) b)).length
          - (bs - (b :: bt).length) = (b :: bt).length := by
        simp only [List.length_append, List.length_replicate]
        omega
      rw [hplen, ← List.map_take]
      congr 1
      exact List.take_left (b :: bt) _
    simp only []
    rw [hkept, zip_append_left _ _ _ (by simp), zip_self_map]
    rw [List.map_map]
    rfl
  · have hpadded : padBatch fill bs (b :: bt) = b :: bt := by
      unfold padBatch
      rw [if_neg]
      intro hcon
      exact hpad ⟨by simp [hcon.1], hcon.2⟩
    unfold runBatch
    rw [hpadded]
    have hkept : (if fill ∧ 0 < bs - (b :: bt).length then
          (((b :: bt).map (fun c => oracle c.translator_input)).take
            ((b :: bt).length - (bs - (b :: bt).length)))
        else ((b :: bt).map (fun c => oracle c.translator_input)))
        = (b :: bt).map (fun c => oracle c.translator_input) := by
      by_cases hf : fill = true
      · rw [if_neg]
        intro hcon
        exact hpad ⟨hf, by omega⟩
      · rw [if_neg]
        intro hcon
        exact hf hcon.1
    simp only []
    rw [hkept, zip_self_map, List.map_map]
    rfl

theorem runBatches_eq (oracle : TranslatorInput → Translation) (fill : Bool) (bs : ℕ)
    (chunks : List IndexedTranslatorInput) (h : 0 < bs ∨ chunks = []) :
    runBatches oracle fill bs chunks
      = chunks.map (fun c => ⟨c.input_idx, c.chunk_idx, oracle c.translator_input⟩) := by
  rcases h with hbs | hnil
  · suffices hgen : ∀ (n : ℕ) (l : List IndexedTranslatorInput), l.length ≤ n →
        runBatches oracle fill bs l
          = l.map (fun c => ⟨c.input_idx, c.chunk_idx, oracle c.translator_input⟩) by
      exact hgen chunks.length chunks le_rfl
    intro n
    induction n with
    | zero =>
      intro l hl
      have : l = [] := by
        cases l with
        | nil => rfl
        | cons a l => simp at hl
      subst this
      rfl
    | succ n ih =>
      intro l hl
      cases hl2 : l with
      | nil => rfl
      | cons a l' =>
        unfold runBatches
        rw [← hl2, grouper_cons bs (by omega) l (by rw [hl2]; simp)]
        simp only [List.map_cons, List.flatten_cons]
        have htake := runBatch_eq oracle fill bs (l.take bs)
          (by rw [Ne, List.take_eq_nil_iff]; push_neg; exact ⟨by omega, by rw [hl2]; simp⟩)
          (List.length_take_le bs l)
        rw [htake]
        have hrec : runBatches oracle fill bs (l.drop bs)
            = (l.drop bs).map (fun c => ⟨c.input_idx, c.chunk_idx, oracle c.translator_input⟩) :=
          ih (l.drop bs) (by subst hl2; simp only [List.length_drop, List.length_cons] at hl ⊢; omega)
        unfold runBatches at hrec
        rw [hrec, ← List.map_append, List.take_append_drop]
  · subst hnil
    rfl

instance : IsTotal IndexedTranslatorInput chunkGE :=
  ⟨fun a b => le_total _ _⟩

instance : IsTrans IndexedTranslatorInput chunkGE :=
  ⟨fun _ _ _ hab hbc => le_trans hbc hab⟩

theorem sortChunks_sorted (l : List IndexedTranslatorInput) :
    List.Sorted chunkGE (sortChunks l) :=
  List.sorted_insertionSort chunkGE l

theorem sortChunks_perm (l : List IndexedTranslatorInput) : (sortChunks l).Perm l :=
  List.perm_insertionSort chunkGE l

/-- Claim C7: before batching, `translate` sorts all indexed chunks by
descending primary-token length (a permutation of the chunk list, ordered by
`chunkGE`), then groups them into consecutive non-overlapping batches of the
batch size (their concatenation restores the sorted list, every batch is
non-empty of size at most the batch size); with the no-fill policy the batch
size is the minimum of the chunk count and the maximum batch size; and on the
spec's scenario — two requests of lengths 10 and 3, maximum batch size 2,
no-fill — exactly one batch of size two arises, the length-10 item first, and
padding duplicates nothing. -/
theorem batching_sorted_scenario :
    (∀ l : List IndexedTranslatorInput,
      List.Sorted chunkGE (sortChunks l) ∧ (sortChunks l).Perm l)
    ∧ (∀ (bs : ℕ) (l : List IndexedTranslatorInput), 0 < bs →
      (grouper bs l).flatten = l ∧ ∀ b ∈ grouper bs l, b ≠ [] ∧ b.length ≤ bs)
    ∧ (∀ maxBS n : ℕ, batchSizeFor false maxBS n = min n maxBS)
    ∧ (sortChunks (splitInputs 50 false [inp10, inp3]).2
        = [⟨0, 0, inp10.withEos⟩, ⟨1, 0, inp3.withEos⟩]
      ∧ grouper (batchSizeFor false 2
            (sortChunks (splitInputs 50 false [inp10, inp3]).2).length)
          (sortChunks (splitInputs 50 false [inp10, inp3]).2)
          = [[⟨0, 0, inp10.withEos⟩, ⟨1, 0, inp3.withEos⟩]]
      ∧ padBatch false 2 [⟨0, 0, inp10.withEos⟩, ⟨1, 0, inp3.withEos⟩]
          = [⟨0, 0, inp10.withEos⟩, ⟨1, 0, inp3.withEos⟩]) := by
  refine ⟨fun l => ⟨sortChunks_sorted l, sortChunks_perm l⟩, ?_, fun _ _ => rfl, ?_⟩
  · intro bs l hbs
    exact ⟨grouper_join bs hbs l.length l le_rfl, grouper_mem bs hbs l.length l le_rfl⟩
  · refine ⟨by decide, by decide, by decide⟩

/-- Witness for C7 at the concrete scenario chunks. -/
theorem batching_sorted_scenario_witness :
    List.Sorted chunkGE (sortChunks (splitInputs 50 false [inp10, inp3]).2)
    ∧ (grouper 2 [(⟨0, 0, inp10.withEos⟩ : IndexedTranslatorInput),
        ⟨1, 0, inp3.withEos⟩]).flatten
      = [(⟨0, 0, inp10.withEos⟩ : IndexedTranslatorInput), ⟨1, 0, inp3.withEos⟩] := by
  refine ⟨(batching_sorted_scenario.1 _).1, ?_⟩
  exact (batching_sorted_scenario.2.1 2 _ (by decide)).1

theorem translatedChunksOf_eq_ref (maxInputLen maxBS : ℕ) (addNbest : Bool)
    (oracle : TranslatorInput → Translation) (fill : Bool)
    (inputs : List TranslatorInput) (hbs : 0 < maxBS) :
    translatedChunksOf maxInputLen maxBS addNbest oracle fill inputs
      = (splitInputs maxInputLen addNbest inputs).1
        ++ (sortChunks (splitInputs maxInputLen addNbest inputs).2).map
            (fun c => ⟨c.input_idx, c.chunk_idx, oracle c.translator_input⟩) := by
  unfold translatedChunksOf
  dsimp only
  congr 1
  apply runBatches_eq
  by_cases hnil : sortChunks (splitInputs maxInputLen addNbest inputs).2 = []
  · right
    exact hnil
  · left
    have hpos : 0 < (sortChunks (splitInputs maxInputLen addNbest inputs).2).length :=
      List.length_pos.mpr hnil
    cases fill with
    | true => simpa [batchSizeFor] using hbs
    | false =>
      simp only [batchSizeFor, Bool.false_eq_true, if_false]
      exact Nat.lt_min.mpr ⟨hpos, hbs⟩

/-- Claim C5: with the fill-up policy, a short final batch is padded by
duplicating its first chunk up to the batch size (every padded batch has
exactly the batch size), and the padding is invisible in the returned
results: `translate` with `fill_up_batches=True` returns exactly what it
returns with `fill_up_batches=False`, so no duplicate's translation appears
and no genuine item's translation or score changes.  (The external Scorer is
modelled per item, as §6 specifies one translation per batch slot.) -/
theorem padding_neutrality (cfg : TranslatorCfg)
    (oracle : TranslatorInput → Translation) (inputs : List TranslatorInput)
    (hbs : 0 < cfg.maxBatchSize) :
    translate cfg oracle true inputs = translate cfg oracle false inputs
    ∧ ∀ b ∈ grouper cfg.maxBatchSize
        (sortChunks (splitInputs cfg.maxInputLength (decide (1 < cfg.nbestSize)) inputs).2),
      ∃ x xs, b = x :: xs
        ∧ padBatch true cfg.maxBatchSize b
            = b ++ List.replicate (cfg.maxBatchSize - b.length) x
        ∧ (padBatch true cfg.maxBatchSize b).length = cfg.maxBatchSize := by
  constructor
  · unfold translate
    rw [translatedChunksOf_eq_ref _ _ _ _ true _ hbs,
      translatedChunksOf_eq_ref _ _ _ _ false _ hbs]
  · intro b hb
    have hmem := grouper_mem cfg.maxBatchSize hbs _ _ le_rfl b hb
    obtain ⟨x, xs, rfl⟩ := List.exists_cons_of_ne_nil hmem.1
    refine ⟨x, xs, rfl, ?_, ?_⟩
    · unfold padBatch
      by_cases hlt : (x :: xs).length < cfg.maxBatchSize
      · rw [if_pos ⟨rfl, hlt⟩]
      · rw [if_neg (fun hcon => hlt hcon.2)]
        have : cfg.maxBatchSize - (x :: xs).length = 0 := by omega
        rw [this]
        simp
    · unfold padBatch
      by_cases hlt : (x :: xs).length < cfg.maxBatchSize
      · rw [if_pos ⟨rfl, hlt⟩]
        simp only [List.length_append, List.length_replicate]
        omega
      · rw [if_neg (fun hcon => hlt hcon.2)]
        have := hmem.2
        omega

/-- Witness for C5 at a concrete configuration and input list. -/
theorem padding_neutrality_witness :
    translate cfgW oracleW true [exInputC2] = translate cfgW oracleW false [exInputC2] := by
  exact (padding_neutrality cfgW oracleW [exInputC2] (by decide)).1

theorem enumFromL_fst_ge : ∀ (n : ℕ) (l : List α) (p : ℕ × α), p ∈ enumFromL n l → n ≤ p.1 := by
  intro n l
  induction l generalizing n with
  | nil => intro p hp; simp [enumFromL] at hp
  | cons a l ih =>
    intro p hp
    rcases List.mem_cons.mp hp with h | h
    · subst h; exact le_rfl
    · have := ih (n + 1) p h
      omega

theorem enumFromL_pairwise_fst (n : ℕ) (l : List α) :
    List.Pairwise (fun p q : ℕ × α => p.1 < q.1) (enumFromL n l) := by
  induction l generalizing n with
  | nil => exact List.Pairwise.nil
  | cons a l ih =>
    refine List.Pairwise.cons ?_ (ih (n + 1))
    intro q hq
    have := enumFromL_fst_ge (n + 1) l q hq
    simp only []
    omega

theorem enumFromL_getD (d : α) : ∀ (l : List α) (n i : ℕ), i < l.length →
    (enumFromL n l).getD i (0, d) = (n + i, l.getD i d) := by
  intro l
  induction l with
  | nil => intro n i hi; simp at hi
  | cons a l ih =>
    intro n i hi
    cases i with
    | zero => simp [enumFromL]
    | succ i =>
      show (enumFromL (n + 1) l).getD i (0, d) = (n + (i + 1), (a :: l).getD (i + 1) d)
      rw [ih (n + 1) i (by simpa using hi)]
      simp only [List.getD_cons_succ]
      congr 1
      omega

theorem enumFromL_mem (d : α) : ∀ (n : ℕ) (l : List α) (p : ℕ × α), p ∈ enumFromL n l →
    n ≤ p.1 ∧ p.1 - n < l.length ∧ p.2 = l.getD (p.1 - n) d := by
  intro n l
  induction l generalizing n with
  | nil => intro p hp; simp [enumFromL] at hp
  | cons a l ih =>
    intro p hp
    rcases List.mem_cons.mp hp with h | h
    · subst h
      refine ⟨le_rfl, by simp, ?_⟩
      simp
    · obtain ⟨h1, h2, h3⟩ := ih (n + 1) p h
      refine ⟨by omega, ?_, ?_⟩
      · simp only [List.length_cons]
        omega
      · have hsub : p.1 - n = (p.1 - (n + 1)) + 1 := by omega
        rw [hsub, List.getD_cons_succ]
        exact h3

theorem chunksList_ne_nil (inp : TranslatorInput) (L : ℕ) (hL : 0 < L)
    (htok : 0 < inp.tokens.length) : inp.chunksList L ≠ [] := by
  unfold TranslatorInput.chunksList
  rw [pyLen_sub_numSourcePrefixTokens, rangeStep_succ inp.tokens.length L hL htok]
  simp [enumFromL]

theorem perInput_fst_idx (m : ℕ) (nb : Bool) (idx : ℕ) (inp : TranslatorInput) :
    ∀ e ∈ (perInput m nb idx inp).1, e.input_idx = idx ∧ e.chunk_idx = 0 := by
  intro e he
  unfold perInput at he
  split_ifs at he with h1 h2 h3 h4 <;> simp at he <;> simp [he]

theorem perInput_snd_idx (m : ℕ) (nb : Bool) (idx : ℕ) (inp : TranslatorInput) :
    ∀ c ∈ (perInput m nb idx inp).2, c.input_idx = idx := by
  intro c hc
  unfold perInput at hc
  split_ifs at hc with h1 h2 h3 h4
  · simp at hc
  · simp at hc
  · simp at hc
  · simp only [List.mem_map] at hc
    obtain ⟨p, _, hpc⟩ := hc
    rw [← hpc]
  · simp only [List.mem_singleton] at hc
    rw [hc]

/-- The two shapes `perInput` can take: an immediate empty translation with
no chunks, or no immediate translation and a non-empty chunk list. -/
theorem perInput_cases (m : ℕ) (nb : Bool) (idx : ℕ) (inp : TranslatorInput) :
    ((perInput m nb idx inp).1 = [⟨idx, 0, emptyTranslation nb⟩]
      ∧ (perInput m nb idx inp).2 = [])
    ∨ ((perInput m nb idx inp).1 = [] ∧ (perInput m nb idx inp).2 ≠ []) := by
  unfold perInput
  split_ifs with h1 h2 h3 h4
  · left; exact ⟨rfl, rfl⟩
  · left; exact ⟨rfl, rfl⟩
  · left; exact ⟨rfl, rfl⟩
  · right
    refine ⟨rfl, ?_⟩
    have hch := chunksList_ne_nil inp (m - inp.numSourcePrefixTokens) (by omega)
      (by omega)
    intro hcon
    simp only [List.map_eq_nil_iff] at hcon
    apply hch
    have := congrArg List.length hcon
    rw [enumFromL_length] at this
    simp only [List.length_nil, List.length_map] at this
    exact List.length_eq_zero.mp this
  · right
    refine ⟨rfl, ?_⟩
    simp

theorem expectedGroup_ne_nil (m : ℕ) (nb : Bool) (oracle : TranslatorInput → Translation)
    (idx : ℕ) (inp : TranslatorInput) : expectedGroup m nb oracle idx inp ≠ [] := by
  unfold expectedGroup
  rcases perInput_cases m nb idx inp with ⟨h1, _⟩ | ⟨_, h2⟩
  · rw [h1]; simp
  · intro hcon
    rcases List.append_eq_nil.mp hcon with ⟨_, hr⟩
    rw [List.map_eq_nil_iff] at hr
    exact h2 hr

theorem expectedGroup_idx (m : ℕ) (nb : Bool) (oracle : TranslatorInput → Translation)
    (idx : ℕ) (inp : TranslatorInput) :
    ∀ e ∈ expectedGroup m nb oracle idx inp, e.input_idx = idx := by
  intro e he
  unfold expectedGroup at he
  rcases List.mem_append.mp he with h | h
  · exact (perInput_fst_idx m nb idx inp e h).1
  · rcases List.mem_map.mp h with ⟨c, hc, hce⟩
    rw [← hce]
    exact perInput_snd_idx m nb idx inp c hc

theorem expectedGroup_pairwise (m : ℕ) (nb : Bool) (oracle : TranslatorInput → Translation)
    (idx : ℕ) (inp : TranslatorInput) :
    List.Pairwise lexLT (expectedGroup m nb oracle idx inp) := by
  unfold expectedGroup
  rcases perInput_cases m nb idx inp with ⟨h1, h2⟩ | ⟨h1, _⟩
  · rw [h1, h2]
    simp
  · rw [h1, List.nil_append]
    unfold perInput
    split_ifs with hc1 hc2 hc3 hc4
    · simp
    · simp
    · simp
    · simp only []
      rw [List.map_map]
      rw [List.pairwise_map]
      apply List.Pairwise.imp ?_ (enumFromL_pairwise_fst 0 _)
      intro a b hpq
      exact Or.inr ⟨rfl, hpq⟩
    · simp only [List.map_cons, List.map_nil]
      simp

theorem interleave_perm {A : Type} : ∀ (ps : List (List A × List A)),
    ((ps.map Prod.fst).flatten ++ (ps.map Prod.snd).flatten).Perm
      ((ps.map (fun p => p.1 ++ p.2)).flatten) := by
  intro ps
  induction ps with
  | nil => simp
  | cons p ps ih =>
    simp only [List.map_cons, List.flatten_cons]
    have h2 : List.Perm
        ((ps.map Prod.fst).flatten ++ (p.2 ++ (ps.map Prod.snd).flatten))
        (p.2 ++ ((ps.map Prod.fst).flatten ++ (ps.map Prod.snd).flatten)) := by
      have ha : (ps.map Prod.fst).flatten ++ (p.2 ++ (ps.map Prod.snd).flatten)
          = ((ps.map Prod.fst).flatten ++ p.2) ++ (ps.map Prod.snd).flatten := by
        rw [List.append_assoc]
      rw [ha]
      refine List.Perm.trans (List.Perm.append_right _ List.perm_append_comm) ?_
      rw [List.append_assoc]
    have h1 : (p.1 ++ (ps.map Prod.fst).flatten) ++ (p.2 ++ (ps.map Prod.snd).flatten)
        = p.1 ++ ((ps.map Prod.fst).flatten ++ (p.2 ++ (ps.map Prod.snd).flatten)) := by
      rw [List.append_assoc]
    rw [h1]
    refine List.Perm.trans (List.Perm.append_left p.1 h2) ?_
    refine List.Perm.trans
      (List.Perm.append_left p.1 (List.Perm.append_left p.2 ih)) ?_
    rw [← List.append_assoc]

theorem interleave_perm2 {B : Type} (g1 g2 : α → List B) : ∀ (l : List α),
    List.Perm ((l.map g1).flatten ++ (l.map g2).flatten)
      ((l.map (fun x => g1 x ++ g2 x)).flatten) := by
  intro l
  have h := interleave_perm (l.map (fun x => (g1 x, g2 x)))
  rw [List.map_map, List.map_map, List.map_map] at h
  exact h

instance : IsTotal IndexedTranslation lexLE :=
  ⟨fun a b => by
    unfold lexLE
    rcases Nat.lt_trichotomy a.input_idx b.input_idx with h | h | h
    · exact Or.inl (Or.inl h)
    · rcases Nat.le_total a.chunk_idx b.chunk_idx with h2 | h2
      · exact Or.inl (Or.inr ⟨h, h2⟩)
      · exact Or.inr (Or.inr ⟨h.symm, h2⟩)
    · exact Or.inr (Or.inl h)⟩

instance : IsTrans IndexedTranslation lexLE :=
  ⟨fun a b c hab hbc => by
    unfold lexLE at *
    rcases hab with h1 | ⟨h1, h1b⟩ <;> rcases hbc with h2 | ⟨h2, h2b⟩
    · exact Or.inl (by omega)
    · exact Or.inl (by omega)
    · exact Or.inl (by omega)
    · exact Or.inr ⟨by omega, by omega⟩⟩

instance : IsAntisymm IndexedTranslation lexLT :=
  ⟨fun a b hab hba => by
    exfalso
    unfold lexLT at *
    rcases hab with h1 | ⟨h1, h1b⟩ <;> rcases hba with h2 | ⟨h2, h2b⟩ <;> omega⟩

theorem sorted_lexLT_of_le_ne (l : List IndexedTranslation)
    (hle : List.Sorted lexLE l)
    (hne : List.Pairwise (fun a b : IndexedTranslation =>
      ¬(a.input_idx = b.input_idx ∧ a.chunk_idx = b.chunk_idx)) l) :
    List.Pairwise lexLT l := by
  apply List.Pairwise.imp ?_ (List.Pairwise.and hle hne)
  intro a b h
  obtain ⟨hab, hne2⟩ := h
  unfold lexLE at hab
  unfold lexLT
  rcases hab with h1 | ⟨h1, h2⟩
  · exact Or.inl h1
  · refine Or.inr ⟨h1, ?_⟩
    have hch : a.chunk_idx ≠ b.chunk_idx := fun he => hne2 ⟨h1, he⟩
    omega

theorem pairwise_keyNe_of_lexLT (l : List IndexedTranslation)
    (h : List.Pairwise lexLT l) :
    List.Pairwise (fun a b : IndexedTranslation =>
      ¬(a.input_idx = b.input_idx ∧ a.chunk_idx = b.chunk_idx)) l := by
  apply List.Pairwise.imp ?_ h
  intro a b hlt
  rintro ⟨he1, he2⟩
  unfold lexLT at hlt
  rcases hlt with h1 | ⟨_, h2⟩ <;> omega

theorem translatedChunks_perm_groups (maxInputLen maxBS : ℕ) (nb : Bool)
    (oracle : TranslatorInput → Translation) (fill : Bool)
    (inputs : List TranslatorInput) (hbs : 0 < maxBS) :
    List.Perm (translatedChunksOf maxInputLen maxBS nb oracle fill inputs)
      ((expectedGroups maxInputLen nb oracle inputs).flatten) := by
  rw [translatedChunksOf_eq_ref maxInputLen maxBS nb oracle fill inputs hbs]
  refine List.Perm.trans
    (List.Perm.append_left _ (List.Perm.map _ (sortChunks_perm _))) ?_
  unfold splitInputs expectedGroups expectedGroup
  dsimp only
  rw [List.map_flatten]
  rw [List.map_map, List.map_map, List.map_map]
  exact interleave_perm2 _ _ _

theorem groups_flatten_pairwise (maxInputLen : ℕ) (nb : Bool)
    (oracle : TranslatorInput → Translation) (inputs : List TranslatorInput) :
    List.Pairwise lexLT ((expectedGroups maxInputLen nb oracle inputs).flatten) := by
  rw [List.pairwise_flatten]
  constructor
  · intro g hg
    rcases List.mem_map.mp hg with ⟨p, _, hpg⟩
    rw [← hpg]
    exact expectedGroup_pairwise maxInputLen nb oracle p.1 p.2
  · unfold expectedGroups
    rw [List.pairwise_map]
    apply List.Pairwise.imp ?_ (enumFromL_pairwise_fst 0 inputs)
    intro p q hpq x hx y hy
    have hxi := expectedGroup_idx maxInputLen nb oracle p.1 p.2 x hx
    have hyi := expectedGroup_idx maxInputLen nb oracle q.1 q.2 y hy
    exact Or.inl (by omega)

theorem sortTranslations_eq_groups (maxInputLen maxBS : ℕ) (nb : Bool)
    (oracle : TranslatorInput → Translation) (fill : Bool)
    (inputs : List TranslatorInput) (hbs : 0 < maxBS) :
    sortTranslations (translatedChunksOf maxInputLen maxBS nb oracle fill inputs)
      = (expectedGroups maxInputLen nb oracle inputs).flatten := by
  have hperm : List.Perm
      (sortTranslations (translatedChunksOf maxInputLen maxBS nb oracle fill inputs))
      ((expectedGroups maxInputLen nb oracle inputs).flatten) :=
    (List.perm_insertionSort lexLE _).trans
      (translatedChunks_perm_groups maxInputLen maxBS nb oracle fill inputs hbs)
  have hsortedGroups := groups_flatten_pairwise maxInputLen nb oracle inputs
  have hsym : ∀ {x y : IndexedTranslation},
      ¬(x.input_idx = y.input_idx ∧ x.chunk_idx = y.chunk_idx) →
      ¬(y.input_idx = x.input_idx ∧ y.chunk_idx = x.chunk_idx) :=
    fun h hc => h ⟨hc.1.symm, hc.2.symm⟩
  have hne := (List.Perm.pairwise_iff hsym hperm).mpr
    (pairwise_keyNe_of_lexLT _ hsortedGroups)
  have hsorted : List.Pairwise lexLT
      (sortTranslations (translatedChunksOf maxInputLen maxBS nb oracle fill inputs)) :=
    sorted_lexLT_of_le_ne _ (List.sorted_insertionSort lexLE _) hne
  exact List.eq_of_perm_of_sorted hperm hsorted hsortedGroups

theorem groupRuns_cons (a : IndexedTranslation) (l : List IndexedTranslation) :
    groupRuns (a :: l)
      = (match groupRuns l with
        | [] => [[a]]
        | [] :: gs => [a] :: gs
        | (b :: g) :: gs =>
          if a.input_idx = b.input_idx then (a :: b :: g) :: gs
          else [a] :: (b :: g) :: gs) := rfl

theorem groupRuns_first : ∀ (a : IndexedTranslation) (l : List IndexedTranslation),
    ∃ g gs, groupRuns (a :: l) = (a :: g) :: gs := by
  intro a l
  induction l generalizing a with
  | nil => exact ⟨[], [], rfl⟩
  | cons b l ih =>
    obtain ⟨g, gs, hg⟩ := ih b
    rw [groupRuns_cons, hg]
    dsimp only
    by_cases hab : a.input_idx = b.input_idx
    · exact ⟨b :: g, gs, by rw [if_pos hab]⟩
    · exact ⟨[], (b :: g) :: gs, by rw [if_neg hab]⟩

theorem groupRuns_append_block (k : ℕ) :
    ∀ (g : List IndexedTranslation), g ≠ [] → (∀ e ∈ g, e.input_idx = k) →
    ∀ (rest : List IndexedTranslation), (∀ b ∈ rest.head?, b.input_idx ≠ k) →
    groupRuns (g ++ rest) = g :: groupRuns rest := by
  intro g
  induction g with
  | nil => intro h; exact absurd rfl h
  | cons a g ih =>
    intro _ hkeys rest hrest
    cases g with
    | nil =>
      simp only [List.cons_append, List.nil_append]
      cases hr : rest with
      | nil => rfl
      | cons b rest2 =>
        obtain ⟨g2, gs2, hg2⟩ := groupRuns_first b rest2
        have hab : a.input_idx ≠ b.input_idx := by
          have hbk : b.input_idx ≠ k := hrest b (by rw [hr]; rfl)
          have hak : a.input_idx = k := hkeys a (by simp)
          rw [hak]
          exact fun he => hbk he.symm
        rw [groupRuns_cons, hg2]
        dsimp only
        rw [if_neg hab, ← hg2]
    | cons a2 g2 =>
      have hih := ih (by simp) (fun e he => hkeys e (List.mem_cons_of_mem a he)) rest hrest
      simp only [List.cons_append] at hih ⊢
      rw [groupRuns_cons, hih]
      dsimp only
      have hk2 : a.input_idx = a2.input_idx := by
        rw [hkeys a (by simp), hkeys a2 (by simp)]
      rw [if_pos hk2]

theorem groupRuns_flatten_blocks :
    ∀ (gs : List (List IndexedTranslation)),
    (∀ g ∈ gs, g ≠ []) →
    (∀ g ∈ gs, ∃ k, ∀ e ∈ g, e.input_idx = k) →
    List.Pairwise (fun g1 g2 => ∀ a ∈ g1, ∀ b ∈ g2, a.input_idx ≠ b.input_idx) gs →
    groupRuns gs.flatten = gs := by
  intro gs
  induction gs with
  | nil =>
    intro _ _ _
    rfl
  | cons g gs ih =>
    intro hne hkeys hpair
    obtain ⟨k, hk⟩ := hkeys g (by simp)
    rw [List.flatten_cons]
    rw [groupRuns_append_block k g (hne g (by simp)) hk gs.flatten ?_]
    · congr 1
      exact ih (fun g2 hg2 => hne g2 (by simp [hg2]))
        (fun g2 hg2 => hkeys g2 (by simp [hg2])) (List.Pairwise.of_cons hpair)
    · intro b hb
      have hbmem : b ∈ gs.flatten := List.mem_of_mem_head? hb
      rcases List.mem_flatten.mp hbmem with ⟨g2, hg2, hbg2⟩
      have hrel := (List.pairwise_cons.mp hpair).1 g2 hg2
      obtain ⟨a0, g0, hg0⟩ := List.exists_cons_of_ne_nil (hne g (by simp))
      have ha0 : a0.input_idx = k := hk a0 (by rw [hg0]; simp)
      have hne0 := hrel a0 (by rw [hg0]; simp) b hbg2
      rw [ha0] at hne0
      exact fun hcon => hne0 hcon.symm

theorem zip_enumFromL_map {β : Type} (g : ℕ × TranslatorInput → β) :
    ∀ (l : List TranslatorInput) (n : ℕ),
    l.zip ((enumFromL n l).map g) = (enumFromL n l).map (fun p => (p.2, g p)) := by
  intro l
  induction l with
  | nil => intro n; rfl
  | cons a l ih =>
    intro n
    simp only [enumFromL, List.map_cons, List.zip_cons_cons, ih (n + 1)]

/-- Main characterization of `Translator.translate`: it equals the per-input
reference computation in which every input's chunks are translated by the
oracle individually and then assembled — the chunking, sorting, batching,
padding, truncation, re-sorting and grouping are semantically invisible (the
result depends only on each input and its own chunks). -/
theorem translate_characterization (cfg : TranslatorCfg)
    (oracle : TranslatorInput → Translation) (fill : Bool)
    (inputs : List TranslatorInput) (hbs : 0 < cfg.maxBatchSize) :
    translate cfg oracle fill inputs
      = translateResults cfg.concatFn cfg.stripIds cfg.vocabTargetsInv
          ((enumFromL 0 inputs).map (fun p =>
            (p.2, expectedGroup cfg.maxInputLength (decide (1 < cfg.nbestSize))
              oracle p.1 p.2))) := by
  unfold translate
  dsimp only
  rw [sortTranslations_eq_groups cfg.maxInputLength cfg.maxBatchSize
    (decide (1 < cfg.nbestSize)) oracle fill inputs hbs]
  rw [groupRuns_flatten_blocks (expectedGroups cfg.maxInputLength
    (decide (1 < cfg.nbestSize)) oracle inputs) ?_ ?_ ?_]
  · unfold expectedGroups
    rw [zip_enumFromL_map]
  · intro g hg
    rcases List.mem_map.mp hg with ⟨p, _, hpg⟩
    rw [← hpg]
    exact expectedGroup_ne_nil _ _ _ _ _
  · intro g hg
    rcases List.mem_map.mp hg with ⟨p, _, hpg⟩
    exact ⟨p.1, by rw [← hpg]; exact expectedGroup_idx _ _ _ _ _⟩
  · unfold expectedGroups
    rw [List.pairwise_map]
    apply List.Pairwise.imp ?_ (enumFromL_pairwise_fst 0 inputs)
    intro p q hpq a ha b hb
    have hai := expectedGroup_idx _ _ oracle p.1 p.2 a ha
    have hbi := expectedGroup_idx _ _ oracle q.1 q.2 b hb
    omega

theorem pruneTargetIds_spec (strip : List ℕ) : ∀ (tids : TokenIds),
    (∀ tok ∈ tids, tok ≠ []) →
    ∃ r, pruneTargetIds strip tids = some r ∧ ∀ tok ∈ r, tok ∈ tids := by
  intro tids
  induction tids with
  | nil => exact fun _ => ⟨[], rfl, by simp⟩
  | cons tok rest ih =>
    intro h
    obtain ⟨h0, t0, ht⟩ := List.exists_cons_of_ne_nil (h tok (by simp))
    obtain ⟨r, hr, hsub⟩ := ih (fun tok2 h2 => h tok2 (List.mem_cons_of_mem tok h2))
    refine ⟨if h0 ∈ strip then r else tok :: r, ?_, ?_⟩
    · unfold pruneTargetIds
      rw [ht, hr]
      simp
    · intro tok2 h2
      by_cases hmem : h0 ∈ strip
      · rw [if_pos hmem] at h2
        exact List.mem_cons_of_mem tok (hsub tok2 h2)
      · rw [if_neg hmem] at h2
        rcases List.mem_cons.mp h2 with h3 | h3
        · rw [h3]; simp
        · exact List.mem_cons_of_mem tok (hsub tok2 h3)

theorem transposeMinGo_length (F : ℕ) : ∀ (rows : List (List ℕ)), rows ≠ [] →
    (∀ r ∈ rows, r.length = F) → (transposeMinGo F rows).length = F := by
  induction F with
  | zero => intro rows _ _; rfl
  | succ k ih =>
    intro rows hne hlen
    have hcond : ¬ (rows.isEmpty = true ∨ rows.any (fun r => r.isEmpty) = true) := by
      intro hcon
      rcases hcon with hc | hc
      · exact hne (List.isEmpty_iff.mp hc)
      · rw [List.any_eq_true] at hc
        obtain ⟨r, hr, hre⟩ := hc
        have hrlen := hlen r hr
        simp only [List.isEmpty_iff] at hre
        rw [hre] at hrlen
        simp at hrlen
    show (if rows.isEmpty = true ∨ rows.any (fun r => r.isEmpty) = true then []
      else (rows.map (fun r => r.headD 0)) :: transposeMinGo k (rows.map (fun r => r.tail))).length
      = k + 1
    rw [if_neg hcond]
    simp only [List.length_cons]
    congr 1
    apply ih
    · simpa using hne
    · intro r hr
      rcases List.mem_map.mp hr with ⟨r0, hr0, hrr⟩
      rw [← hrr]
      have := hlen r0 hr0
      simp [List.length_tail, this]

theorem transposeMin_length (F : ℕ) (rows : List (List ℕ)) (hne : rows ≠ [])
    (hlen : ∀ r ∈ rows, r.length = F) : (transposeMin rows).length = F := by
  unfold transposeMin
  obtain ⟨r0, rest, rfl⟩ := List.exists_cons_of_ne_nil hne
  have h0 : ((r0 :: rest).headD []).length = F := hlen r0 (by simp)
  rw [show (r0 :: rest).headD [] = r0 from rfl] at h0 ⊢
  rw [h0]
  exact transposeMinGo_length F (r0 :: rest) hne hlen

theorem mapVocab_isSome (vocab : List (ℕ → String)) : ∀ (seqs : List (List ℕ)) (i : ℕ),
    i + seqs.length ≤ vocab.length →
    ∃ r, mapVocab vocab i seqs = some r ∧ r.length = seqs.length := by
  intro seqs
  induction seqs with
  | nil => exact fun i _ => ⟨[], rfl, rfl⟩
  | cons seq rest ih =>
    intro i hlen
    have hi : i < vocab.length := by
      simp only [List.length_cons] at hlen
      omega
    obtain ⟨r, hr, hrl⟩ := ih (i + 1) (by simp only [List.length_cons] at hlen; omega)
    have hv : vocab.get? i = some (vocab.get ⟨i, hi⟩) := List.get?_eq_get hi
    refine ⟨(seq.map (vocab.get ⟨i, hi⟩)) :: r, ?_, by simp [hrl]⟩
    unfold mapVocab
    rw [hv, hr]
    rfl

theorem getTTF_isSome (strip : List ℕ) (vocab : List (ℕ → String)) (F : ℕ)
    (hF : 0 < F) (hvocab : vocab.length = F) (tids : TokenIds)
    (hids : ∀ tok ∈ tids, tok.length = F) :
    ∃ out, getTranslationTokensAndFactors strip vocab tids = some out := by
  have hne : ∀ tok ∈ tids, tok ≠ [] := by
    intro tok htok hcon
    have := hids tok htok
    rw [hcon] at this
    simp at this
    omega
  obtain ⟨pruned, hpr, hsub⟩ := pruneTargetIds_spec strip tids hne
  have hprunedlen : ∀ r ∈ pruned, r.length = F := fun r hr => hids r (hsub r hr)
  unfold getTranslationTokensAndFactors
  rw [hpr]
  simp only [Option.bind_eq_bind, Option.some_bind]
  by_cases hpn : pruned = []
  · subst hpn
    have ht : transposeMin ([] : List (List ℕ)) = [] := rfl
    rw [ht]
    have hm : mapVocab vocab 0 [] = some [] := rfl
    rw [hm]
    simp only [Option.bind_eq_bind, Option.some_bind, List.isEmpty_nil, if_pos]
    obtain ⟨k, rfl⟩ : ∃ k, F = k + 1 := ⟨F - 1, by omega⟩
    rw [hvocab, List.replicate_succ]
    exact ⟨_, rfl⟩
  · have htl := transposeMin_length F pruned hpn hprunedlen
    obtain ⟨r, hm, hrl⟩ := mapVocab_isSome vocab (transposeMin pruned) 0
      (by omega)
    rw [hm]
    simp only [Option.bind_eq_bind, Option.some_bind]
    have hrne : r ≠ [] := by
      intro hcon
      rw [hcon] at hrl
      simp only [List.length_nil] at hrl
      omega
    obtain ⟨x, xs, rfl⟩ := List.exists_cons_of_ne_nil hrne
    simp only [List.isEmpty_cons, if_neg, List.map_cons]
    exact ⟨_, rfl⟩

theorem nbestOutputs_isSome (strip : List ℕ) (vocab : List (ℕ → String)) (F : ℕ)
    (hF : 0 < F) (hvocab : vocab.length = F) : ∀ (tidsl : List TokenIds),
    (∀ tids ∈ tidsl, ∀ tok ∈ tids, tok.length = F) →
    ∃ r, nbestOutputs strip vocab tidsl = some r := by
  intro tidsl
  induction tidsl with
  | nil => exact fun _ => ⟨_, rfl⟩
  | cons tids rest ih =>
    intro h
    obtain ⟨one, hone⟩ := getTTF_isSome strip vocab F hF hvocab tids (h tids (by simp))
    obtain ⟨more, hmore⟩ := ih (fun t ht => h t (List.mem_cons_of_mem tids ht))
    refine ⟨(one.1 :: more.1, one.2.1 :: more.2.1, one.2.2.1 :: more.2.2.1,
      one.2.2.2 :: more.2.2.2), ?_⟩
    unfold nbestOutputs
    rw [hone, hmore]
    rfl

theorem makeResult_spec (strip : List ℕ) (vocab : List (ℕ → String)) (F : ℕ)
    (hF : 0 < F) (hvocab : vocab.length = F) (inp : TranslatorInput) (t : Translation)
    (hids : ∀ tok ∈ t.target_ids, tok.length = F) (hsc : t.scores ≠ [])
    (hnb : ∀ nb, t.nbest_translations = some nb →
      ∀ tids ∈ nb.target_ids_list, ∀ tok ∈ tids, tok.length = F) :
    ∃ out, makeResult strip vocab inp t = some out
      ∧ out.sentence_id = inp.sentence_id := by
  obtain ⟨prim, hprim⟩ := getTTF_isSome strip vocab F hF hvocab t.target_ids hids
  obtain ⟨s0, srest, hsc2⟩ := List.exists_cons_of_ne_nil hsc
  unfold makeResult
  rw [hprim, hsc2]
  simp only [Option.bind_eq_bind, Option.some_bind, List.head?_cons]
  cases hnbt : t.nbest_translations with
  | none => exact ⟨_, rfl, rfl⟩
  | some nb =>
    obtain ⟨nbo, hnbo⟩ := nbestOutputs_isSome strip vocab F hF hvocab
      nb.target_ids_list (hnb nb hnbt)
    dsimp only
    rw [hnbo]
    simp only [Option.bind_eq_bind, Option.some_bind]
    exact ⟨_, rfl, rfl⟩

theorem getTTF_nil (strip : List ℕ) (vocab : List (ℕ → String)) (F : ℕ)
    (hF : 0 < F) (hvocab : vocab.length = F) :
    ∃ ftk fstr, getTranslationTokensAndFactors strip vocab [] = some ([], "", ftk, fstr) := by
  obtain ⟨k, hk⟩ : ∃ k, F = k + 1 := ⟨F - 1, by omega⟩
  unfold getTranslationTokensAndFactors
  rw [show pruneTargetIds strip [] = some [] from rfl]
  simp only [Option.bind_eq_bind, Option.some_bind]
  rw [show transposeMin ([] : List (List ℕ)) = [] from rfl]
  rw [show mapVocab vocab 0 [] = some [] from rfl]
  simp only [Option.bind_eq_bind, Option.some_bind, List.isEmpty_nil, if_pos, hvocab, hk,
    List.replicate_succ, List.map_cons]
  exact ⟨_, _, rfl⟩

theorem makeResult_empty (strip : List ℕ) (vocab : List (ℕ → String)) (F : ℕ)
    (hF : 0 < F) (hvocab : vocab.length = F) (inp : TranslatorInput) (nb : Bool) :
    ∃ out, makeResult strip vocab inp (emptyTranslation nb) = some out
      ∧ out.sentence_id = inp.sentence_id
      ∧ out.translation = "" ∧ out.tokens = [] ∧ out.score = ⊥
      ∧ (nb = false → out.nbest_translations = none ∧ out.nbest_scores = none) := by
  obtain ⟨ftk, fstr, httf⟩ := getTTF_nil strip vocab F hF hvocab
  unfold makeResult
  rw [show (emptyTranslation nb).target_ids = [] from rfl, httf]
  simp only [Option.bind_eq_bind, Option.some_bind]
  rw [show (emptyTranslation nb).scores = [⊥] from rfl]
  simp only [List.head?_cons, Option.some_bind]
  cases nb with
  | false =>
    rw [show (emptyTranslation false).nbest_translations = none from rfl]
    exact ⟨_, rfl, rfl, rfl, rfl, rfl, fun _ => ⟨rfl, rfl⟩⟩
  | true =>
    rw [show (emptyTranslation true).nbest_translations
      = some ⟨[], []⟩ from rfl]
    dsimp only
    rw [show nbestOutputs strip vocab [] = some ([], [], [], []) from rfl]
    simp only [Option.bind_eq_bind, Option.some_bind]
    refine ⟨_, rfl, rfl, rfl, rfl, rfl, ?_⟩
    intro hcon
    exact absurd hcon (by simp)

theorem nonFinalsOK_of_wf (F NS : ℕ) (hF : 0 < F) : ∀ ts : List Translation,
    (∀ t ∈ ts, WFTranslation F NS t) → nonFinalsOK ts := by
  intro ts
  induction ts with
  | nil => intro _; trivial
  | cons t rest ih =>
    intro h
    cases rest with
    | nil => trivial
    | cons r rest2 =>
      have hne := (h t (by simp)).1
      have hids := (h t (by simp)).2.1
      show (t.target_ids ≠ [] ∧ t.target_ids.getLast?.getD [] ≠ [])
        ∧ nonFinalsOK (r :: rest2)
      refine ⟨⟨hne, ?_⟩, ih (fun u hu => h u (List.mem_cons_of_mem t hu))⟩
      rw [List.getLast?_eq_getLast _ hne]
      simp only [Option.getD_some]
      have hmem : t.target_ids.getLast hne ∈ t.target_ids := List.getLast_mem hne
      have hlen := hids _ hmem
      intro hcon
      rw [hcon] at hlen
      simp at hlen
      omega

theorem concatTranslations_wf (stop : List ℕ) (un norm : Score → ℕ → Option ℚ → Score)
    (F NS : ℕ) (hF : 0 < F) (hNS : 0 < NS) :
    ∀ ts : List Translation, ts ≠ [] → (∀ t ∈ ts, WFTranslation F NS t) →
    ∃ r, concatTranslations stop un norm ts = some r ∧ WFConcatResult F r := by
  intro ts hne hwf
  cases ts with
  | nil => exact absurd rfl hne
  | cons t0 rest =>
    cases rest with
    | nil =>
      refine ⟨t0, rfl, ?_⟩
      have h := hwf t0 (by simp)
      refine ⟨h.2.1, ?_, h.2.2.2⟩
      intro hcon
      have := h.2.2.1
      rw [hcon] at this
      simp at this
      omega
    | cons t1 rest2 =>
      have hnf := nonFinalsOK_of_wf F NS hF _ hwf
      have hacc : (([], none, t0.scores.map (fun _ => (0 : Score)))
          : TokenIds × Option ℚ × List Score).2.2.length = NS := by
        simp [(hwf t0 (by simp)).2.2.1]
      obtain ⟨res, hres, hreslen, hresF, _⟩ := concatLoop_spec stop un NS hNS
        (t0 :: t1 :: rest2) _ hacc hnf (fun u hu => (hwf u hu).2.2.1)
      obtain ⟨rids, rerl, rsc⟩ := res
      simp only at hreslen
      obtain ⟨s0, srest, rfl⟩ : ∃ s0 srest, rsc = s0 :: srest := by
        apply List.exists_cons_of_ne_nil
        intro hcon
        rw [hcon] at hreslen
        simp at hreslen
        omega
      refine ⟨{ target_ids := rids
                scores := norm s0 rids.length rerl :: srest
                estimated_reference_length := rerl }, ?_, ?_, ?_, ?_⟩
      · simp only [concatTranslations]
        rw [hres]
        rfl
      · intro tok htok
        refine hresF F ?_ (fun u hu => (hwf u hu).2.1) tok htok
        intro tok2 htok2
        simp at htok2
      · simp
      · intro nb2 hnb2
        simp at hnb2

theorem assembleGroup_single (concatFn : List Translation → Option Translation)
    (inp : TranslatorInput) (it : IndexedTranslation)
    (hstrip : ¬(0 < inp.numTargetPrefixTokens ∧ inp.keep_target_prefix_key = false)) :
    assembleGroup concatFn inp [it] = some it.translation := by
  show some (if 0 < inp.numTargetPrefixTokens ∧ inp.keep_target_prefix_key = false then
    { it.translation with
      target_ids := removeTargetPrefixTokens it.translation.target_ids
        inp.numTargetPrefixTokens }
    else it.translation) = some it.translation
  rw [if_neg hstrip]

theorem assembleGroup_multi (concatFn : List Translation → Option Translation)
    (inp : TranslatorInput) (x y : IndexedTranslation) (ys : List IndexedTranslation)
    (hstrip : ¬(0 < inp.numTargetPrefixTokens ∧ inp.keep_target_prefix_key = false)) :
    assembleGroup concatFn inp (x :: y :: ys)
      = concatFn ((x :: y :: ys).map (fun it => it.translation)) := by
  show concatFn (if 0 < inp.numTargetPrefixTokens ∧ inp.keep_target_prefix_key = false then
      (enumFromL 0 ((x :: y :: ys).map (fun it => it.translation))).map (fun p =>
        if p.1 = 0 ∨ inp.use_target_prefix_all_chunks then
          { p.2 with
            target_ids := removeTargetPrefixTokens p.2.target_ids
              inp.numTargetPrefixTokens }
        else p.2)
    else (x :: y :: ys).map (fun it => it.translation))
    = concatFn ((x :: y :: ys).map (fun it => it.translation))
  rw [if_neg hstrip]

theorem expectedGroup_item_spec (concatFn : List Translation → Option Translation)
    (strip : List ℕ) (vocab : List (ℕ → String)) (F NS : ℕ)
    (hF : 0 < F) (hNS : 0 < NS) (hvocab : vocab.length = F)
    (oracle : TranslatorInput → Translation)
    (horacle : ∀ inp, WFTranslation F NS (oracle inp))
    (hconcat : ∀ ts, ts ≠ [] → (∀ t ∈ ts, WFTranslation F NS t) →
      ∃ r, concatFn ts = some r ∧ WFConcatResult F r)
    (m : ℕ) (nb : Bool) (idx : ℕ) (inp : TranslatorInput)
    (hpfx : inp.keep_target_prefix_key = true ∨ inp.numTargetPrefixTokens = 0) :
    ∃ out, (assembleGroup concatFn inp (expectedGroup m nb oracle idx inp)).bind
        (makeResult strip vocab inp) = some out
      ∧ out.sentence_id = inp.sentence_id := by
  have hstrip : ¬(0 < inp.numTargetPrefixTokens ∧ inp.keep_target_prefix_key = false) := by
    rintro ⟨hp, hk⟩
    rcases hpfx with h | h
    · rw [h] at hk
      simp at hk
    · omega
  have hwf_oracle : ∀ (c : IndexedTranslatorInput),
      WFTranslation F NS (oracle c.translator_input) := fun c => horacle _
  rcases perInput_cases m nb idx inp with ⟨h1, h2⟩ | ⟨h1, h2⟩
  · have hg : expectedGroup m nb oracle idx inp = [⟨idx, 0, emptyTranslation nb⟩] := by
      unfold expectedGroup
      rw [h1, h2]
      rfl
    rw [hg, assembleGroup_single concatFn inp _ hstrip]
    simp only [Option.some_bind]
    obtain ⟨out, hout, hsid, _⟩ := makeResult_empty strip vocab F hF hvocab inp nb
    exact ⟨out, hout, hsid⟩
  · have hg : expectedGroup m nb oracle idx inp
        = (perInput m nb idx inp).2.map
            (fun c => ⟨c.input_idx, c.chunk_idx, oracle c.translator_input⟩) := by
      unfold expectedGroup
      rw [h1]
      rfl
    obtain ⟨c0, crest, hc⟩ := List.exists_cons_of_ne_nil h2
    cases crest with
    | nil =>
      rw [hg, hc]
      simp only [List.map_cons, List.map_nil]
      rw [assembleGroup_single concatFn inp _ hstrip]
      simp only [Option.some_bind]
      have hw := horacle c0.translator_input
      exact makeResult_spec strip vocab F hF hvocab inp _ hw.2.1
        (by intro hcon; have := hw.2.2.1; rw [hcon] at this; simp at this; omega)
        hw.2.2.2
    | cons c1 crest2 =>
      rw [hg, hc]
      simp only [List.map_cons]
      rw [assembleGroup_multi concatFn inp _ _ _ hstrip]
      have hts : ∀ t ∈ ((⟨c0.input_idx, c0.chunk_idx, oracle c0.translator_input⟩
            :: (⟨c1.input_idx, c1.chunk_idx, oracle c1.translator_input⟩ : IndexedTranslation)
            :: crest2.map (fun c => ⟨c.input_idx, c.chunk_idx, oracle c.translator_input⟩)).map
            (fun it => it.translation)),
          WFTranslation F NS t := by
        intro t ht
        simp only [List.map_cons, List.mem_cons] at ht
        rcases ht with h | h | h
        · rw [h]; exact horacle _
        · rw [h]; exact horacle _
        · rw [List.map_map] at h
          rcases List.mem_map.mp h with ⟨c, _, hct⟩
          rw [← hct]
          exact horacle _
      obtain ⟨r, hr, hwfr⟩ := hconcat _ (by simp) hts
      rw [hr]
      simp only [Option.some_bind]
      exact makeResult_spec strip vocab F hF hvocab inp r hwfr.1 hwfr.2.1 hwfr.2.2

theorem translateResults_spec (concatFn : List Translation → Option Translation)
    (strip : List ℕ) (vocab : List (ℕ → String)) :
    ∀ (items : List (TranslatorInput × List IndexedTranslation)),
    (∀ it ∈ items, ∃ out,
      (assembleGroup concatFn it.1 it.2).bind (makeResult strip vocab it.1) = some out) →
    ∃ outs, translateResults concatFn strip vocab items = some outs
      ∧ outs.length = items.length
      ∧ ∀ i, i < items.length →
          (assembleGroup concatFn (items.getD i blankItem).1
              (items.getD i blankItem).2).bind
            (makeResult strip vocab (items.getD i blankItem).1)
          = some (outs.getD i blankOutput) := by
  intro items
  induction items with
  | nil =>
    intro _
    exact ⟨[], rfl, rfl, fun i hi => absurd hi (by simp)⟩
  | cons item rest ih =>
    intro h
    obtain ⟨out, hout⟩ := h item (by simp)
    obtain ⟨t, ht, hmk⟩ := Option.bind_eq_some.mp hout
    obtain ⟨outs, houts, hlen, hidx⟩ := ih (fun it hit => h it (List.mem_cons_of_mem item hit))
    obtain ⟨inp, g⟩ := item
    refine ⟨out :: outs, ?_, by simp [hlen], ?_⟩
    · unfold translateResults
      dsimp only at ht hmk
      rw [ht]
      simp only [Option.bind_eq_bind, Option.some_bind]
      rw [hmk]
      simp only [Option.bind_eq_bind, Option.some_bind]
      rw [houts]
      rfl
    · intro i hi
      cases i with
      | zero =>
        simp only [List.getD_cons_zero]
        exact hout
      | succ i =>
        simp only [List.getD_cons_succ]
        exact hidx i (by simpa using hi)

theorem enumFromL_snd_mem : ∀ (n : ℕ) (l : List α) (p : ℕ × α), p ∈ enumFromL n l →
    p.2 ∈ l := by
  intro n l
  induction l generalizing n with
  | nil => intro p hp; simp [enumFromL] at hp
  | cons a l ih =>
    intro p hp
    rcases List.mem_cons.mp hp with h | h
    · rw [h]
      simp
    · exact List.mem_cons_of_mem a (ih (n + 1) p h)

theorem getD_mem_of_lt : ∀ (l : List α) (i : ℕ) (d : α), i < l.length → l.getD i d ∈ l := by
  intro l
  induction l with
  | nil => intro i d hi; simp at hi
  | cons a l ih =>
    intro i d hi
    cases i with
    | zero => simp
    | succ i =>
      simp only [List.getD_cons_succ]
      exact List.mem_cons_of_mem a (ih i d (by simpa using hi))

/-- Claim C1: for every list of `N` inputs (any mix of valid, bad, empty and
over-length ones), every batch size, every fill policy and every splitting
into chunks, `translate` returns a list of exactly `N` results whose `i`-th
entry carries the `i`-th input's sentence id — assuming the external
collaborators behave as §6 requires: the scorer produces a well-formed
translation per chunk, the configured concatenation callable succeeds on
well-formed non-empty lists (as `_concat_translations` does), the reversed
vocabularies cover the `F` target factors, and target prefixes are either
kept or absent (so stripping cannot empty a chunk). -/
theorem translate_length_and_ids (cfg : TranslatorCfg)
    (oracle : TranslatorInput → Translation) (fill : Bool)
    (inputs : List TranslatorInput) (F NS : ℕ)
    (hbs : 0 < cfg.maxBatchSize) (hF : 0 < F) (hNS : 0 < NS)
    (hvocab : cfg.vocabTargetsInv.length = F)
    (horacle : ∀ inp, WFTranslation F NS (oracle inp))
    (hconcat : ∀ ts, ts ≠ [] → (∀ t ∈ ts, WFTranslation F NS t) →
      ∃ r, cfg.concatFn ts = some r ∧ WFConcatResult F r)
    (hpfx : ∀ inp ∈ inputs,
      inp.keep_target_prefix_key = true ∨ inp.numTargetPrefixTokens = 0) :
    ∃ res, translate cfg oracle fill inputs = some res
      ∧ res.length = inputs.length
      ∧ ∀ i, i < inputs.length →
        (res.getD i blankOutput).sentence_id
          = (inputs.getD i blankTInput).sentence_id := by
  rw [translate_characterization cfg oracle fill inputs hbs]
  have hitems : ∀ it ∈ (enumFromL 0 inputs).map (fun p =>
      (p.2, expectedGroup cfg.maxInputLength (decide (1 < cfg.nbestSize)) oracle p.1 p.2)),
      ∃ out, (assembleGroup cfg.concatFn it.1 it.2).bind
        (makeResult cfg.stripIds cfg.vocabTargetsInv it.1) = some out := by
    intro it hit
    rcases List.mem_map.mp hit with ⟨p, hp, hpit⟩
    have hmem : p.2 ∈ inputs := enumFromL_snd_mem 0 inputs p hp
    obtain ⟨out, hout, _⟩ := expectedGroup_item_spec cfg.concatFn cfg.stripIds
      cfg.vocabTargetsInv F NS hF hNS hvocab oracle horacle hconcat
      cfg.maxInputLength (decide (1 < cfg.nbestSize)) p.1 p.2 (hpfx p.2 hmem)
    rw [← hpit]
    exact ⟨out, hout⟩
  obtain ⟨outs, houts, hlen, hidx⟩ := translateResults_spec cfg.concatFn cfg.stripIds
    cfg.vocabTargetsInv _ hitems
  refine ⟨outs, houts, ?_, ?_⟩
  · rw [hlen, List.length_map, enumFromL_length]
  · intro i hi
    have hitem : (((enumFromL 0 inputs).map (fun p =>
        (p.2, expectedGroup cfg.maxInputLength (decide (1 < cfg.nbestSize))
          oracle p.1 p.2))).getD i blankItem)
        = (inputs.getD i blankTInput, expectedGroup cfg.maxInputLength
            (decide (1 < cfg.nbestSize)) oracle i (inputs.getD i blankTInput)) := by
      rw [getD_map' (fun p : ℕ × TranslatorInput =>
          (p.2, expectedGroup cfg.maxInputLength (decide (1 < cfg.nbestSize))
            oracle p.1 p.2)) (0, blankTInput) blankItem
          (enumFromL 0 inputs) i (by rw [enumFromL_length]; exact hi)]
      rw [enumFromL_getD blankTInput inputs 0 i hi]
      simp
    have hbind := hidx i (by rw [List.length_map, enumFromL_length]; exact hi)
    rw [hitem] at hbind
    obtain ⟨out2, hout2, hsid⟩ := expectedGroup_item_spec cfg.concatFn cfg.stripIds
      cfg.vocabTargetsInv F NS hF hNS hvocab oracle horacle hconcat
      cfg.maxInputLength (decide (1 < cfg.nbestSize)) i (inputs.getD i blankTInput)
      (hpfx _ (getD_mem_of_lt inputs i blankTInput hi))
    simp only at hbind
    rw [hout2] at hbind
    have heq : outs.getD i blankOutput = out2 := (Option.some_inj.mp hbind).symm
    rw [heq, hsid]

/-- Witness for C1 at a concrete configuration, oracle and input list. -/
theorem translate_length_and_ids_witness :
    ∃ res, translate cfgW oracleW true [exInputC2] = some res
      ∧ res.length = 1
      ∧ ∀ i, i < 1 → (res.getD i blankOutput).sentence_id
          = ([exInputC2].getD i blankTInput).sentence_id := by
  have horacleW : ∀ inp, WFTranslation 1 1 (oracleW inp) := by
    intro inp
    show WFTranslation 1 1 tOkA
    refine ⟨by decide, by decide, by decide, ?_⟩
    intro nb hnb
    simp [tOkA] at hnb
  have hconcatW : ∀ ts, ts ≠ [] → (∀ t ∈ ts, WFTranslation 1 1 t) →
      ∃ r, cfgW.concatFn ts = some r ∧ WFConcatResult 1 r :=
    fun ts h1 h2 => concatTranslations_wf [0, 3] unW normW 1 1 (by decide) (by decide) ts h1 h2
  have hpfxW : ∀ inp ∈ [exInputC2],
      inp.keep_target_prefix_key = true ∨ inp.numTargetPrefixTokens = 0 := by
    intro inp hm
    rw [List.mem_singleton.mp hm]
    left
    rfl
  obtain ⟨res, h1, h2, h3⟩ := translate_length_and_ids cfgW oracleW true [exInputC2] 1 1
    (by decide) (by decide) (by decide) (by decide) horacleW hconcatW hpfxW
  exact ⟨res, h1, by simpa using h2, by simpa using h3⟩

theorem perInput_bad_or_empty (m : ℕ) (nb : Bool) (idx : ℕ) (inp : TranslatorInput)
    (h : inp.isBad = true ∨ inp.tokens = []) :
    perInput m nb idx inp = ([⟨idx, 0, emptyTranslation nb⟩], []) := by
  unfold perInput
  by_cases hb : inp.isBad = true
  · rw [if_pos hb]
  · rw [if_neg hb]
    rcases h with h | h
    · exact absurd h hb
    · rw [if_pos (by rw [h]; rfl)]

theorem no_chunks_for_bad (m : ℕ) (nb : Bool) (inputs : List TranslatorInput) (i : ℕ)
    (hi : i < inputs.length)
    (hbad : (inputs.getD i blankTInput).isBad = true
      ∨ (inputs.getD i blankTInput).tokens = []) :
    ∀ c ∈ (splitInputs m nb inputs).2, c.input_idx ≠ i := by
  intro c hc
  unfold splitInputs at hc
  dsimp only at hc
  obtain ⟨l2, hl2, hcl⟩ := List.mem_flatten.mp hc
  rcases List.mem_map.mp hl2 with ⟨part, hpart, hl2eq⟩
  rcases List.mem_map.mp hpart with ⟨p, hp, hparteq⟩
  have hcmem : c ∈ (perInput m nb p.1 p.2).2 := by
    rw [← hl2eq, ← hparteq] at hcl
    exact hcl
  have hcidx : c.input_idx = p.1 := perInput_snd_idx m nb p.1 p.2 c hcmem
  intro hcon
  have hp1 : p.1 = i := by rw [← hcidx, hcon]
  have hpm := enumFromL_mem blankTInput 0 inputs p hp
  have hp2 : p.2 = inputs.getD i blankTInput := by
    simpa [hp1] using hpm.2.2
  have hperi := perInput_bad_or_empty m nb p.1 p.2 (by rw [hp2]; exact hbad)
  rw [hperi] at hcmem
  simp at hcmem

/-- Claim C6: every `BadTranslatorInput` and every zero-token input yields
exactly one result, derived from the empty-translation sentinel: empty
translation string, empty token list, score `-inf` (`⊥`), and no n-best
fields when a single hypothesis is requested; such an input is never placed
in any batch (no chunk carries its index), and `translate` does not raise on
it (its result list is `some`, under the same collaborator assumptions as
the order-preservation claim). -/
theorem bad_empty_inputs_empty_result (cfg : TranslatorCfg)
    (oracle : TranslatorInput → Translation) (fill : Bool)
    (inputs : List TranslatorInput) (F NS : ℕ)
    (hbs : 0 < cfg.maxBatchSize) (hF : 0 < F) (hNS : 0 < NS)
    (hvocab : cfg.vocabTargetsInv.length = F)
    (horacle : ∀ inp, WFTranslation F NS (oracle inp))
    (hconcat : ∀ ts, ts ≠ [] → (∀ t ∈ ts, WFTranslation F NS t) →
      ∃ r, cfg.concatFn ts = some r ∧ WFConcatResult F r)
    (hpfx : ∀ inp ∈ inputs,
      inp.keep_target_prefix_key = true ∨ inp.numTargetPrefixTokens = 0)
    (i : ℕ) (hi : i < inputs.length)
    (hbad : (inputs.getD i blankTInput).isBad = true
      ∨ (inputs.getD i blankTInput).tokens = []) :
    ∃ res, translate cfg oracle fill inputs = some res
      ∧ (res.getD i blankOutput).translation = ""
      ∧ (res.getD i blankOutput).tokens = []
      ∧ (res.getD i blankOutput).score = ⊥
      ∧ (res.getD i blankOutput).sentence_id = (inputs.getD i blankTInput).sentence_id
      ∧ (cfg.nbestSize ≤ 1 → (res.getD i blankOutput).nbest_translations = none
          ∧ (res.getD i blankOutput).nbest_scores = none)
      ∧ ∀ c ∈ (splitInputs cfg.maxInputLength (decide (1 < cfg.nbestSize)) inputs).2,
          c.input_idx ≠ i := by
  rw [translate_characterization cfg oracle fill inputs hbs]
  have hitems : ∀ it ∈ (enumFromL 0 inputs).map (fun p =>
      (p.2, expectedGroup cfg.maxInputLength (decide (1 < cfg.nbestSize)) oracle p.1 p.2)),
      ∃ out, (assembleGroup cfg.concatFn it.1 it.2).bind
        (makeResult cfg.stripIds cfg.vocabTargetsInv it.1) = some out := by
    intro it hit
    rcases List.mem_map.mp hit with ⟨p, hp, hpit⟩
    have hmem : p.2 ∈ inputs := enumFromL_snd_mem 0 inputs p hp
    obtain ⟨out, hout, _⟩ := expectedGroup_item_spec cfg.concatFn cfg.stripIds
      cfg.vocabTargetsInv F NS hF hNS hvocab oracle horacle hconcat
      cfg.maxInputLength (decide (1 < cfg.nbestSize)) p.1 p.2 (hpfx p.2 hmem)
    rw [← hpit]
    exact ⟨out, hout⟩
  obtain ⟨outs, houts, hlen, hidx⟩ := translateResults_spec cfg.concatFn cfg.stripIds
    cfg.vocabTargetsInv _ hitems
  have hitem : (((enumFromL 0 inputs).map (fun p =>
      (p.2, expectedGroup cfg.maxInputLength (decide (1 < cfg.nbestSize))
        oracle p.1 p.2))).getD i blankItem)
      = (inputs.getD i blankTInput, expectedGroup cfg.maxInputLength
          (decide (1 < cfg.nbestSize)) oracle i (inputs.getD i blankTInput)) := by
    rw [getD_map' (fun p : ℕ × TranslatorInput =>
        (p.2, expectedGroup cfg.maxInputLength (decide (1 < cfg.nbestSize))
          oracle p.1 p.2)) (0, blankTInput) blankItem
        (enumFromL 0 inputs) i (by rw [enumFromL_length]; exact hi)]
    rw [enumFromL_getD blankTInput inputs 0 i hi]
    simp
  have hbind := hidx i (by rw [List.length_map, enumFromL_length]; exact hi)
  rw [hitem] at hbind
  simp only at hbind
  have hgroup : expectedGroup cfg.maxInputLength (decide (1 < cfg.nbestSize)) oracle i
      (inputs.getD i blankTInput)
      = [⟨i, 0, emptyTranslation (decide (1 < cfg.nbestSize))⟩] := by
    unfold expectedGroup
    rw [perInput_bad_or_empty _ _ _ _ hbad]
    rfl
  rw [hgroup] at hbind
  have hstrip : ¬(0 < (inputs.getD i blankTInput).numTargetPrefixTokens
      ∧ (inputs.getD i blankTInput).keep_target_prefix_key = false) := by
    rintro ⟨hp, hk⟩
    rcases hpfx _ (getD_mem_of_lt inputs i blankTInput hi) with h | h
    · rw [h] at hk
      simp at hk
    · omega
  rw [assembleGroup_single cfg.concatFn _ _ hstrip] at hbind
  simp only [Option.some_bind] at hbind
  obtain ⟨out, hout, hsid, htr, htok, hsc, hnbf⟩ := makeResult_empty cfg.stripIds
    cfg.vocabTargetsInv F hF hvocab (inputs.getD i blankTInput)
    (decide (1 < cfg.nbestSize))
  rw [hout] at hbind
  have heq : outs.getD i blankOutput = out := (Option.some_inj.mp hbind).symm
  refine ⟨outs, houts, ?_, ?_, ?_, ?_, ?_, ?_⟩
  · rw [heq, htr]
  · rw [heq, htok]
  · rw [heq, hsc]
  · rw [heq, hsid]
  · intro hn1
    have hdec : decide (1 < cfg.nbestSize) = false := by
      rw [decide_eq_false_iff_not]
      omega
    rw [heq]
    exact hnbf hdec
  · exact no_chunks_for_bad cfg.maxInputLength (decide (1 < cfg.nbestSize)) inputs i hi hbad

/-- Witness for C6 at a concrete empty-token input. -/
theorem bad_empty_inputs_empty_result_witness :
    ∃ res, translate cfgW oracleW true [exEmptyInput] = some res
      ∧ (res.getD 0 blankOutput).translation = ""
      ∧ (res.getD 0 blankOutput).tokens = []
      ∧ (res.getD 0 blankOutput).score = ⊥
      ∧ (res.getD 0 blankOutput).sentence_id = Sum.inr "x"
      ∧ ∀ c ∈ (splitInputs cfgW.maxInputLength (decide (1 < cfgW.nbestSize))
          [exEmptyInput]).2, c.input_idx ≠ 0 := by
  have horacleW : ∀ inp, WFTranslation 1 1 (oracleW inp) := by
    intro inp
    show WFTranslation 1 1 tOkA
    refine ⟨by decide, by decide, by decide, ?_⟩
    intro nb hnb
    simp [tOkA] at hnb
  have hconcatW : ∀ ts, ts ≠ [] → (∀ t ∈ ts, WFTranslation 1 1 t) →
      ∃ r, cfgW.concatFn ts = some r ∧ WFConcatResult 1 r :=
    fun ts h1 h2 => concatTranslations_wf [0, 3] unW normW 1 1 (by decide) (by decide) ts h1 h2
  have hpfxW : ∀ inp ∈ [exEmptyInput],
      inp.keep_target_prefix_key = true ∨ inp.numTargetPrefixTokens = 0 := by
    intro inp hm
    rw [List.mem_singleton.mp hm]
    left
    rfl
  obtain ⟨res, h1, h2, h3, h4, h5, _, h7⟩ := bad_empty_inputs_empty_result cfgW oracleW true
    [exEmptyInput] 1 1 (by decide) (by decide) (by decide) (by decide)
    horacleW hconcatW hpfxW 0 (by decide) (by right; rfl)
  exact ⟨res, h1, h2, h3, h4, by rw [h5]; rfl, h7⟩

end Sockeye
